import Mathlib

set_option autoImplicit false

attribute [local semireducible] Rat.add Rat.mul Rat.inv Rat.sub Rat.ofScientific

/-!
Verification of the stock-analysis feature pipeline.

The development shallowly embeds the pandas-based pipeline
(`src/indicators/base.py`, `src/indicators/indicator.py`,
`src/loaders/base.py`).  Numeric cells are modelled by `EF`: exact
rationals standing in for IEEE-754 doubles, plus the two infinities and
NaN.  Rational arithmetic is exact where floats round, but every claim
below depends only on the propagation of zeros, infinities and NaNs,
which rationals-with-special-values reproduce faithfully.  The two
transcendental functions the code uses (`np.log1p` and the square root
inside a rolling standard deviation) cannot be carried out in exact
rational arithmetic; the embedding takes them as explicit function
parameters, so every theorem holds for any implementation of them,
including IEEE's.
-/

/-- Extended numeric cell value: a finite rational, plus or minus
infinity, or NaN (the missing-value marker of pandas). -/
inductive EF where
  | fin (q : ℚ)
  | inf
  | ninf
  | nan
deriving DecidableEq, Repr

namespace EF

/-- True exactly on the NaN cell. -/
def isNaN : EF → Bool
  | nan => true
  | _ => false

/-- True exactly on finite cells. -/
def isFin : EF → Bool
  | fin _ => true
  | _ => false

/-- IEEE-754 addition lifted to `EF` (opposite infinities give NaN). -/
def add : EF → EF → EF
  | nan, _ => nan
  | _, nan => nan
  | fin a, fin b => fin (a + b)
  | fin _, inf => inf
  | fin _, ninf => ninf
  | inf, fin _ => inf
  | ninf, fin _ => ninf
  | inf, inf => inf
  | ninf, ninf => ninf
  | inf, ninf => nan
  | ninf, inf => nan

/-- IEEE-754 negation lifted to `EF`. -/
def neg : EF → EF
  | nan => nan
  | fin a => fin (-a)
  | inf => ninf
  | ninf => inf

/-- IEEE-754 multiplication lifted to `EF` (zero times infinity is NaN). -/
def mul : EF → EF → EF
  | nan, _ => nan
  | _, nan => nan
  | fin a, fin b => fin (a * b)
  | fin a, inf => if a = 0 then nan else if 0 < a then inf else ninf
  | fin a, ninf => if a = 0 then nan else if 0 < a then ninf else inf
  | inf, fin b => if b = 0 then nan else if 0 < b then inf else ninf
  | ninf, fin b => if b = 0 then nan else if 0 < b then ninf else inf
  | inf, inf => inf
  | inf, ninf => ninf
  | ninf, inf => ninf
  | ninf, ninf => inf

/-- IEEE-754 division lifted to `EF`.  A nonzero finite value divided by
zero gives a signed infinity (the rational zero stands for IEEE +0, the
only zero the pipeline produces), `0/0` and `inf/inf` give NaN, and a
finite value divided by an infinity gives zero. -/
def div : EF → EF → EF
  | nan, _ => nan
  | _, nan => nan
  | fin a, fin b =>
      if b = 0 then (if a = 0 then nan else if 0 < a then inf else ninf)
      else fin (a / b)
  | fin _, inf => fin 0
  | fin _, ninf => fin 0
  | inf, fin b => if 0 ≤ b then inf else ninf
  | ninf, fin b => if 0 ≤ b then ninf else inf
  | inf, inf => nan
  | inf, ninf => nan
  | ninf, inf => nan
  | ninf, ninf => nan

/-- Absolute value (`np.abs`) lifted to `EF`. -/
def abs : EF → EF
  | nan => nan
  | fin a => fin |a|
  | inf => inf
  | ninf => inf

/-- Strict comparison against zero, as numpy evaluates `x > 0`
(false on NaN). -/
def gtZero : EF → Bool
  | fin a => decide (0 < a)
  | inf => true
  | _ => false

/-- Strict comparison against zero, as numpy evaluates `x < 0`
(false on NaN). -/
def ltZero : EF → Bool
  | fin a => decide (a < 0)
  | ninf => true
  | _ => false

instance : Add EF := ⟨EF.add⟩
instance : Neg EF := ⟨EF.neg⟩
instance : Mul EF := ⟨EF.mul⟩
instance : Div EF := ⟨EF.div⟩

/-- IEEE-754 subtraction, `a - b = a + (-b)`. -/
def sub (a b : EF) : EF := a + (-b)

instance : Sub EF := ⟨EF.sub⟩

end EF

/-! ## Series operations (pandas `Series` methods used by the code) -/

/-- Model of `Series.shift(h)` for `h ≥ 0`: row `i` holds the value `h`
rows earlier, NaN for the first `h` rows. -/
def shiftF (h : Nat) (s : List EF) : List EF :=
  (List.range s.length).map (fun i => if i < h then EF.nan else s.getD (i - h) EF.nan)

/-- Model of `Series.shift(-1)`: row `i` holds the value of row `i + 1`,
NaN on the last row. -/
def shiftBack1 (s : List EF) : List EF :=
  (List.range s.length).map (fun i => s.getD (i + 1) EF.nan)

/-- Model of `Series.pct_change(h)` with no forward-filling of the input
(the modern pandas default; the deprecated `fill_method="pad"` never
fires in this pipeline because providers deliver gap-free columns):
`s / s.shift(h) - 1` elementwise. -/
def pctChange (h : Nat) (s : List EF) : List EF :=
  List.zipWith (fun a b => a / b - EF.fin 1) s (shiftF h s)

/-- One step of the pandas exponentially-weighted-mean state machine
(`pandas/core/window/aggregations.pyx`, `ignore_na=False`, the default
used by the code).  State: current weighted average (NaN before the
first observation) and the relative weight of the history.  On a NaN
observation the history weight decays but the average is unchanged; on
an observation the new value enters with weight 1 (`adjust=True`) or
`alpha` (`adjust=False`), and with `adjust=False` the history weight is
reset to 1. -/
def ewmStep (alpha : ℚ) (adjust : Bool) (st : EF × ℚ) (x : EF) : EF × ℚ :=
  if st.1.isNaN then (if x.isNaN then st else (x, 1))
  else if x.isNaN then (st.1, st.2 * (1 - alpha))
  else
    let w' : ℚ := st.2 * (1 - alpha)
    let nw : ℚ := if adjust then 1 else alpha
    let y := (EF.fin w' * st.1 + EF.fin nw * x) / EF.fin (w' + nw)
    (y, if adjust then w' + nw else 1)

/-- Helper for `ewmMean`: threads the state along the series and emits
the running weighted average. -/
def ewmGo (alpha : ℚ) (adjust : Bool) : EF × ℚ → List EF → List EF
  | _, [] => []
  | st, x :: rest =>
      let st' := ewmStep alpha adjust st x
      st'.1 :: ewmGo alpha adjust st' rest

/-- Model of `Series.ewm(...).mean()` with smoothing factor `alpha`
(`com=c` gives `alpha = 1/(1+c)`, `span=s` gives `alpha = 2/(s+1)`) and
the given `adjust` mode, with the default `ignore_na=False` and
`min_periods=0`. -/
def ewmMean (alpha : ℚ) (adjust : Bool) (s : List EF) : List EF :=
  ewmGo alpha adjust (EF.nan, 1) s

/-- Mean of a list of rationals. -/
def qMean (l : List ℚ) : ℚ := l.sum / l.length

/-- Sample variance (`ddof=1`, the pandas default) of a list of
rationals. -/
def sampleVar (l : List ℚ) : ℚ :=
  let m := qMean l
  (l.map (fun x => (x - m) ^ 2)).sum / (l.length - 1 : ℕ)

/-- The finite payload of a cell (0 on non-finite cells; callers guard
with `EF.isFin`). -/
def EF.toQ : EF → ℚ
  | EF.fin q => q
  | _ => 0

/-- Model of `Series.rolling(w).std()`: the sample standard deviation of
the trailing `w` cells, NaN while the window has not filled
(`min_periods` defaults to the window size), NaN when the window
contains a NaN (the observation count falls short) or an infinity (the
sum-of-squares aggregation turns indeterminate), and NaN for `w ≤ 1`
(sample variance of one observation divides by zero; pandas rejects a
window of 0 outright, a case the data model's positive-horizon
invariant keeps unreachable).  The square root is supplied as the
parameter `sq`, applied to the exact nonnegative rational variance. -/
def rollingStd (sq : ℚ → ℚ) (w : Nat) (s : List EF) : List EF :=
  (List.range s.length).map (fun i =>
    if i + 1 < w ∨ w ≤ 1 then EF.nan
    else
      let win := (s.drop (i + 1 - w)).take w
      if win.all EF.isFin then EF.fin (sq (sampleVar (win.map EF.toQ)))
      else EF.nan)

/-- Model of `np.log1p` on a cell: the parameter `f` supplies the value
of `log(1+q)` for finite `q > -1`; the edge cases (`q = -1` gives
`-inf`, `q < -1` gives NaN, and the non-finite cells) follow numpy. -/
def npLog1p (f : ℚ → EF) : EF → EF
  | EF.fin q => if q < -1 then EF.nan else if q = -1 then EF.ninf else f q
  | EF.inf => EF.inf
  | EF.ninf => EF.nan
  | EF.nan => EF.nan

/-- Helper for linear interpolation: for each position, the last
non-NaN `(position, value)` strictly before it (a left-to-right scan
with a carry). -/
def prevDef : List EF → Option (Nat × EF) → Nat → List (Option (Nat × EF))
  | [], _, _ => []
  | x :: rest, carry, i =>
      carry :: prevDef rest (if x.isNaN then carry else some (i, x)) (i + 1)

/-- Helper for linear interpolation: for each position, the first
non-NaN `(position, value)` at or after it (a right-to-left scan). -/
def nextDef : Nat → List EF → List (Option (Nat × EF))
  | _, [] => []
  | i, x :: rest =>
      let tail := nextDef (i + 1) rest
      (if x.isNaN then tail.headD none else some (i, x)) :: tail

/-- Model of `Series.interpolate(method="linear", limit_direction="both")`:
interior NaN runs are filled linearly in row position between the two
neighbouring non-NaN cells; a leading (trailing) NaN run is filled with
the first (last) non-NaN value, since linear interpolation does not
extrapolate past the boundary; an all-NaN column stays all-NaN.
Non-NaN cells (including infinities) are untouched. -/
def interpolateLinear (s : List EF) : List EF :=
  let pd := prevDef s none 0
  let nd := nextDef 0 s
  (List.range s.length).map (fun i =>
    let x := s.getD i EF.nan
    if x.isNaN then
      match pd.getD i none, nd.getD i none with
      | some (j, a), some (k, b) =>
          a + (b - a) * EF.fin (((i - j : ℕ) : ℚ) / ((k - j : ℕ) : ℚ))
      | some (_, a), none => a
      | none, some (_, b) => b
      | none, none => EF.nan
    else x)

/-! ## Tables (pandas `DataFrame`) -/

/-- A time-indexed table: a strictly increasing list of timestamps and
named numeric columns of matching length (`TimeSeriesTable` of the data
model). -/
structure Table where
  index : List Int
  cols : List (String × List EF)
deriving DecidableEq, Repr

namespace Table

/-- Column lookup, `df[name]`; `none` models the `KeyError` raised on a
missing column. -/
def getCol? (t : Table) (n : String) : Option (List EF) :=
  (t.cols.find? (fun c => c.1 = n)).map (fun c => c.2)

/-- True when the column exists (`name in df.columns`). -/
def hasCol (t : Table) (n : String) : Bool :=
  (t.cols.find? (fun c => c.1 = n)).isSome

/-- Helper for `setCol`: replace the value of an existing key in place,
or append the new key at the end. -/
def setColAux : List (String × List EF) → String → List EF → List (String × List EF)
  | [], n, v => [(n, v)]
  | (m, c) :: rest, n, v =>
      if m = n then (m, v) :: rest else (m, c) :: setColAux rest n v

/-- Column assignment, `df[name] = v`: overwrites an existing column in
its position, otherwise appends the column on the right. -/
def setCol (t : Table) (n : String) (v : List EF) : Table :=
  ⟨t.index, setColAux t.cols n v⟩

/-- Number of rows. -/
def rowCount (t : Table) : Nat := t.index.length

/-- The list of column names, `df.columns`. -/
def names (t : Table) : List String := t.cols.map (fun c => c.1)

/-- Cell access by column name and row position (NaN when out of
range); a convenience for stating claims. -/
def cellAt (t : Table) (n : String) (i : Nat) : EF :=
  ((t.getCol? n).getD []).getD i EF.nan

/-- True when no cell of the table is NaN or infinite. -/
def allCellsFinite (t : Table) : Bool :=
  t.cols.all (fun c => c.2.all EF.isFin)

/-- The well-formedness invariant of `TimeSeriesTable`: strictly
increasing timestamps, no duplicate column names, and every column as
long as the index. -/
def WF (t : Table) : Prop :=
  t.index.Chain' (· < ·) ∧ (t.names).Nodup ∧
    ∀ c ∈ t.cols, c.2.length = t.index.length

end Table

/-! ## Indicator stages (`src/indicators/base.py`, `src/indicators/indicator.py`) -/

/-- Failure raised by the pipeline: the `KeyError` a stage raises when
its prerequisite column is absent (the spec's `MissingColumn`). -/
inductive PipeError where
  | missingColumn (name : String)
deriving DecidableEq, Repr

/-- The four indicator stages with their constructor parameters
(`VolatilityIndicator(timeframes)`, `MACDIndicator`,
`RSIIndicator(window)`, `BollingerBandsIndicator(window)`). -/
inductive Indicator where
  | volatility (timeframes : List Nat)
  | macd
  | rsi (window : Nat)
  | bollingerBands (window : Nat)
deriving DecidableEq, Repr

/-- The loop of `VolatilityIndicator.apply`: for each timeframe `i` it
reads `return_1` (raising `KeyError` when absent, hence only when the
loop runs at least once) and writes
`volatility_i = np.log1p(return_1).rolling(i).std()`. -/
def volLoop (lg : ℚ → EF) (sq : ℚ → ℚ) : List Nat → Table → Except PipeError Table
  | [], acc => .ok acc
  | i :: rest, acc =>
      match acc.getCol? ("return_1") with
      | none => .error (.missingColumn ("return_1"))
      | some r1 =>
          volLoop lg sq rest
            (acc.setCol (("volatility_") ++ toString i) (rollingStd sq i (r1.map (npLog1p lg))))

/-- Model of the four `apply` methods.  `lg` supplies `log1p` on finite
arguments and `sq` the square root inside the rolling standard
deviation (see the header note).  The returned table is the stage's
working frame `df_`; copy-versus-mutate aliasing is modelled separately
by `Indicator.applyEffect`. -/
def Indicator.apply (lg : ℚ → EF) (sq : ℚ → ℚ) : Indicator → Table → Except PipeError Table
  | .volatility tfs, df => volLoop lg sq tfs df
  | .macd, df =>
      match df.getCol? ("Close") with
      | none => .error (.missingColumn ("Close"))
      | some close =>
          let ema12 := ewmMean (2 / 13) false close
          let ema26 := ewmMean (2 / 27) false close
          let macdLine := List.zipWith (fun a b => a - b) ema12 ema26
          let signalLine := ewmMean (2 / 10) false macdLine
          .ok (((df.setCol ("macd_line") macdLine).setCol
              ("macd_signal_line") signalLine).setCol
              ("macd_histogram") (List.zipWith (fun a b => a - b) macdLine signalLine))
  | .rsi w, df =>
      match df.getCol? ("return_1") with
      | none => .error (.missingColumn ("return_1"))
      | some r1 =>
          let posGain := ewmMean (1 / (1 + w : ℚ)) true
            (r1.map (fun x => if x.gtZero then x else EF.fin 0))
          let negGain := ewmMean (1 / (1 + w : ℚ)) true
            (r1.map (fun x => if x.ltZero then x else EF.fin 0))
          let rs := List.zipWith (fun a b => (a / b).abs) posGain negGain
          .ok (df.setCol ("rsi") (rs.map (fun r => EF.fin 100 * r / (EF.fin 1 + r))))
  | .bollingerBands w, df =>
      match df.getCol? ("Close") with
      | none => .error (.missingColumn ("Close"))
      | some close =>
          let mid := ewmMean (2 / (w + 1 : ℚ)) true close
          let std := rollingStd sq w close
          .ok (((df.setCol ("bollinger_mid") mid).setCol
              ("bollinger_lower") (List.zipWith (fun a b => a - EF.fin 2 * b) mid std)).setCol
              ("bollinger_upper") (List.zipWith (fun a b => a + EF.fin 2 * b) mid std))

/-- Model of `apply` together with `BaseIndicator._prepare_df`'s
aliasing: the result is the pair (returned table, the caller's table
after the call).  With `in_place=True`, `df_` *is* the caller's frame,
so the caller observes the mutated result; with `in_place=False` the
stage works on `df.copy()` (a deep copy), so the caller's frame is
untouched and shares nothing with the result. -/
def Indicator.applyEffect (lg : ℚ → EF) (sq : ℚ → ℚ) (ind : Indicator)
    (inPlace : Bool) (df : Table) : Except PipeError (Table × Table) :=
  (ind.apply lg sq df).map (fun r => (r, if inPlace then r else df))

/-- The named prerequisite column of each stage. -/
def Indicator.requiredCol : Indicator → String
  | .volatility _ => "return_1"
  | .macd => "Close"
  | .rsi _ => "return_1"
  | .bollingerBands _ => "Close"

/-- The parameters of each stage's `__init__` (those of
`BaseIndicator` for `MACDIndicator`, which defines none of its own). -/
def Indicator.initParams : Indicator → List String
  | .volatility _ => ["timeframes", "in_place"]
  | .macd => ["in_place"]
  | .rsi _ => ["window", "in_place"]
  | .bollingerBands _ => ["window", "in_place"]

/-! ## Loader (`src/loaders/base.py`) -/

namespace DataLoader

/-- The parameters of `DataLoader.__init__` (`self` omitted), in source
order. -/
def initParams : List String :=
  ["provider", "asset", "benchmark_asset", "start_date", "end_date", "freq", "timeframes"]

/-- Line 74: `df["forward_return"] = df["Close"].pct_change().shift(-1)`
(`KeyError` when `Close` is absent). -/
def deriveTarget (df : Table) : Except PipeError Table :=
  match df.getCol? ("Close") with
  | none => .error (.missingColumn ("Close"))
  | some close => .ok (df.setCol ("forward_return") (shiftBack1 (pctChange 1 close)))

/-- The body of the feature loop (lines 76–83) for one timeframe `i`
and one naming prefix `pre` (`""` for the asset frame, `"benchmark_"`
for the benchmark frame):
`df[pre + "return_i"] = df["Close"].pct_change(i)` and
`df[pre + "volume_i"] = df["Volume"].pct_change(i)`. -/
def featureStep (pre : String) (df : Table) (i : Nat) : Except PipeError Table :=
  match df.getCol? ("Close") with
  | none => .error (.missingColumn ("Close"))
  | some close =>
      let df1 := df.setCol (pre ++ ("return_") ++ toString i) (pctChange i close)
      match df1.getCol? ("Volume") with
      | none => .error (.missingColumn ("Volume"))
      | some volume => .ok (df1.setCol (pre ++ ("volume_") ++ toString i) (pctChange i volume))

/-- The feature loop over the configured timeframes. -/
def deriveFeatures (pre : String) : List Nat → Table → Except PipeError Table
  | [], df => .ok df
  | i :: rest, df =>
      match featureStep pre df i with
      | .error e => .error e
      | .ok df' => deriveFeatures pre rest df'

/-- Character-list prefix test, the model of `str.startswith(pre)`
(stated on `String.data` so that it evaluates structurally). -/
def strStarts : List Char → List Char → Bool
  | [], _ => true
  | _ :: _, [] => false
  | c :: cs, d :: ds => c == d && strStarts cs ds

/-- Lines 86–91: left-join, on the timestamp index, of exactly those
benchmark columns whose name starts with `"benchmark_"` onto the asset
table.  Every asset row is kept; a joined cell carries the benchmark's
cell when the timestamp occurs in the benchmark index and NaN
otherwise. -/
def mergeBenchmark (df bench : Table) : Table :=
  ⟨df.index,
    df.cols ++
      (bench.cols.filter (fun c => strStarts ("benchmark_").data c.1.data)).map
        (fun c =>
          (c.1, df.index.map (fun ts =>
            match bench.index.findIdx? (fun x => x == ts) with
            | some j => c.2.getD j EF.nan
            | none => EF.nan)))⟩

/-- Lines 94–96: interpolate every column linearly in both directions,
replace `±inf` by NaN, and drop every row still containing a NaN. -/
def clean (t : Table) : Table :=
  let interp : Table := ⟨t.index, t.cols.map (fun c => (c.1, interpolateLinear c.2))⟩
  let replaced : Table :=
    ⟨interp.index, interp.cols.map (fun c =>
      (c.1, c.2.map (fun x => if x = EF.inf ∨ x = EF.ninf then EF.nan else x)))⟩
  let keep := (List.range replaced.index.length).filter (fun i =>
    replaced.cols.all (fun c => !(c.2.getD i EF.nan).isNaN))
  ⟨keep.map (fun i => replaced.index.getD i 0),
    replaced.cols.map (fun c => (c.1, keep.map (fun i => c.2.getD i EF.nan)))⟩

/-- Model of `DataLoader.load()` (lines 70–98), taking the two tables
the provider returned for the asset and the benchmark: derive the
forward target on the asset frame, derive per-timeframe features on
both frames, merge the benchmark-prefixed columns, and clean. -/
def load (df dfBenchmark : Table) (timeframes : List Nat) : Except PipeError Table := do
  let t ← deriveTarget df
  let t ← deriveFeatures ("") timeframes t
  let b ← deriveFeatures ("benchmark_") timeframes dfBenchmark
  .ok (clean (mergeBenchmark t b))

end DataLoader

/-! ## Concrete inputs used by counterexamples and witnesses -/

/-- Identity stand-in for `log1p` on finite arguments, used when a
concrete instantiation of the abstract `log1p` parameter is needed
(the claims never depend on its values). -/
def lgId : ℚ → EF := fun q => EF.fin q

/-- Identity stand-in for the square root inside the rolling standard
deviation (the claims never depend on its values). -/
def sqId : ℚ → ℚ := fun q => q

/-- Close prices rising exactly 1% per bar, starting at 1. -/
def pricesUp (n : Nat) : List EF :=
  (List.range n).map (fun i => EF.fin ((101 / 100 : ℚ) ^ i))

/-- A constant-volume column. -/
def constVol (n : Nat) : List EF := List.replicate n (EF.fin 1000)

/-- An OHLCV table with `n` daily rows, prices rising 1% per bar and
constant volume (the spec's end-to-end scenario). -/
def assetUp (n : Nat) : Table :=
  ⟨(List.range n).map (fun i => (i : Int)),
   [("Open", pricesUp n), ("High", pricesUp n), ("Low", pricesUp n),
    ("Close", pricesUp n), ("Volume", constVol n)]⟩

/-- The column names `DataLoader.load` produces for horizon set `{1,5}`. -/
def c1Names : List String :=
  ["Open", "High", "Low", "Close", "Volume", "forward_return",
   "return_1", "volume_1", "return_5", "volume_5",
   "benchmark_return_1", "benchmark_volume_1", "benchmark_return_5", "benchmark_volume_5"]

/-- A one-column table whose `return_1` is strictly positive (the
returns of a strictly increasing price series). -/
def rsiUpTbl : Table :=
  ⟨[0, 1], [("return_1", [EF.fin 1, EF.fin 1])]⟩

/-- A table whose `return_1` contains an infinite cell (row 1), after a
finite negative cell (row 0). -/
def rsiInfTbl : Table :=
  ⟨[0, 1], [("return_1", [EF.fin (-1), EF.inf])]⟩

/-- A three-row asset table (the merge counterexample's asset side,
timestamps `{1,2,3}`). -/
def mergeAsset : Table :=
  ⟨[1, 2, 3], [("Close", [EF.fin 10, EF.fin 11, EF.fin 12])]⟩

/-- A two-row benchmark table (timestamps `{1,3}`) whose
benchmark-prefixed column is undefined at timestamp 1. -/
def mergeBench : Table :=
  ⟨[1, 3], [("benchmark_return_1", [EF.nan, EF.fin 1]), ("Close", [EF.fin 5, EF.fin 6])]⟩

/-- A one-row table carrying only `return_1`, small enough for witness
evaluation. -/
def tinyR1 : Table := ⟨[0], [("return_1", [EF.fin 1])]⟩

/-- A one-row table carrying `return_1` and `Close`. -/
def tinyRC : Table := ⟨[0], [("return_1", [EF.fin 1]), ("Close", [EF.fin 2])]⟩

/-- A three-row table carrying only `return_1` (the oversized-window
counterexample). -/
def r1Three : Table :=
  ⟨[0, 1, 2], [("return_1", [EF.fin 1, EF.fin 2, EF.fin 3])]⟩

/-- Constructor tag of a stage (two stages of different kinds are
"distinct stages" in the sense of the commutation claim). -/
def Indicator.kind : Indicator → Nat
  | .volatility _ => 0
  | .macd => 1
  | .rsi _ => 2
  | .bollingerBands _ => 3

/-- The names of the columns each stage writes. -/
def Indicator.writeNames : Indicator → List String
  | .volatility tfs => tfs.map (fun i => ("volatility_") ++ toString i)
  | .macd => ["macd_line", "macd_signal_line", "macd_histogram"]
  | .rsi _ => ["rsi"]
  | .bollingerBands _ => ["bollinger_mid", "bollinger_lower", "bollinger_upper"]

/-- The left-join of one benchmark column onto the asset's timestamp
index: at each asset timestamp, the benchmark's cell at that timestamp
if it occurs in the benchmark index, NaN otherwise (the column
`DataLoader.mergeBenchmark` produces). -/
def benchJoinCol (benchIdx : List Int) (vals : List EF) (assetIdx : List Int) : List EF :=
  assetIdx.map (fun ts =>
    match benchIdx.findIdx? (fun x => x == ts) with
    | some j => vals.getD j EF.nan
    | none => EF.nan)

/-! ## Basic lemmas about tables -/

namespace Table

theorem setColAux_self (cols : List (String × List EF)) (n : String) (v : List EF) :
    (setColAux cols n v).find? (fun c => c.1 = n) = some (n, v) := by
  induction cols with
  | nil => simp [setColAux]
  | cons c rest ih =>
      by_cases h : c.1 = n
      · simp [setColAux, h]
      · simp [setColAux, h, List.find?, ih]

theorem setColAux_ne (cols : List (String × List EF)) (n m : String) (v : List EF)
    (h : m ≠ n) :
    (setColAux cols n v).find? (fun c => c.1 = m) = cols.find? (fun c => c.1 = m) := by
  induction cols with
  | nil => simp [setColAux, List.find?, (by simpa using h.symm : ¬ n = m)]
  | cons c rest ih =>
      obtain ⟨c1, c2⟩ := c
      by_cases hc : c1 = n
      · subst hc
        simp [setColAux, List.find?, (by simpa using h.symm : ¬ c1 = m)]
      · simp only [setColAux, if_neg hc, List.find?]
        by_cases hm : c1 = m
        · simp [hm]
        · simp [hm, ih]

theorem getCol?_setCol_self (t : Table) (n : String) (v : List EF) :
    (t.setCol n v).getCol? n = some v := by
  simp [getCol?, setCol, setColAux_self]

theorem getCol?_setCol_ne (t : Table) (n m : String) (v : List EF) (h : m ≠ n) :
    (t.setCol n v).getCol? m = t.getCol? m := by
  simp [getCol?, setCol, setColAux_ne _ _ _ _ h]

theorem index_setCol (t : Table) (n : String) (v : List EF) :
    (t.setCol n v).index = t.index := rfl

theorem hasCol_iff (t : Table) (n : String) :
    t.hasCol n = true ↔ ∃ v, t.getCol? n = some v := by
  unfold hasCol getCol?
  cases h : t.cols.find? (fun c => c.1 = n) <;> simp [h]

theorem hasCol_setCol (t : Table) (n m : String) (v : List EF)
    (h : t.hasCol m = true) : (t.setCol n v).hasCol m = true := by
  by_cases hm : m = n
  · subst hm
    simp [hasCol_iff, getCol?_setCol_self]
  · rw [hasCol_iff] at h ⊢
    rwa [getCol?_setCol_ne _ _ _ _ hm]

end Table

/-! ## Computation lemmas for `EF` arithmetic -/

namespace EF

theorem fin_add_fin (a b : ℚ) : fin a + fin b = fin (a + b) := rfl

theorem fin_mul_fin (a b : ℚ) : fin a * fin b = fin (a * b) := rfl

theorem fin_div_fin (a b : ℚ) (h : b ≠ 0) : fin a / fin b = fin (a / b) := by
  show EF.div (fin a) (fin b) = fin (a / b)
  simp [EF.div, h]

theorem pos_div_zero (a : ℚ) (h : 0 < a) : fin a / fin 0 = inf := by
  show EF.div (fin a) (fin 0) = inf
  simp [EF.div, h, h.ne']

theorem zero_div_zero : fin 0 / fin 0 = nan := by
  show EF.div (fin 0) (fin 0) = nan
  simp [EF.div]

theorem hundred_mul_inf : fin 100 * inf = inf := by
  show EF.mul (fin 100) inf = inf
  norm_num [EF.mul]

theorem one_add_inf : fin 1 + inf = inf := rfl

theorem inf_div_inf : inf / inf = nan := rfl

theorem abs_inf : EF.abs inf = inf := rfl

theorem abs_fin (a : ℚ) : EF.abs (fin a) = fin |a| := rfl

theorem fin_mul_nan (a : ℚ) : fin a * nan = nan := rfl

theorem fin_add_nan (a : ℚ) : fin a + nan = nan := rfl

theorem nan_div_nan : (nan : EF) / nan = nan := rfl

theorem abs_nan : EF.abs nan = nan := rfl

theorem isNaN_fin (a : ℚ) : (fin a).isNaN = false := rfl

end EF

/-! ## Indexing lemmas for lists -/

theorem getD_zipWith {α β γ : Type} (f : α → β → γ) (A : List α) (B : List β)
    (i : Nat) (da : α) (db : β) (dc : γ) (hA : i < A.length) (hB : i < B.length) :
    (List.zipWith f A B).getD i dc = f (A.getD i da) (B.getD i db) := by
  induction A generalizing B i with
  | nil => simp at hA
  | cons a A ih =>
      cases B with
      | nil => simp at hB
      | cons b B =>
          cases i with
          | zero => simp
          | succ i =>
              simp only [List.zipWith_cons_cons, List.getD_cons_succ]
              exact ih B i (by simpa using hA) (by simpa using hB)

theorem getD_map {α β : Type} (f : α → β) (A : List α) (i : Nat) (da : α) (db : β)
    (hA : i < A.length) : (A.map f).getD i db = f (A.getD i da) := by
  induction A generalizing i with
  | nil => simp at hA
  | cons a A ih =>
      cases i with
      | zero => simp
      | succ i =>
          simp only [List.map_cons, List.getD_cons_succ]
          exact ih i (by simpa using hA)

theorem mem_of_getD {α : Type} (A : List α) (i : Nat) (d : α) (h : i < A.length) :
    A.getD i d ∈ A := by
  induction A generalizing i with
  | nil => simp at h
  | cons a A ih =>
      cases i with
      | zero => simp
      | succ i =>
          simp only [List.getD_cons_succ]
          exact List.mem_cons_of_mem _ (ih i (by simpa using h))

/-! ## Shape lemmas for the exponentially weighted mean -/

theorem ewmGo_length (alpha : ℚ) (adjust : Bool) (st : EF × ℚ) (l : List EF) :
    (ewmGo alpha adjust st l).length = l.length := by
  induction l generalizing st with
  | nil => rfl
  | cons x rest ih => simp [ewmGo, ih]

theorem ewmMean_length (alpha : ℚ) (adjust : Bool) (l : List EF) :
    (ewmMean alpha adjust l).length = l.length := ewmGo_length _ _ _ _

/-- Invariant propagation for the `adjust=True` weighted mean: any
property of rationals preserved by the convex-combination update and
satisfied by all inputs is satisfied by all outputs. -/
theorem ewmGo_sign (P : ℚ → Prop) (alpha : ℚ) (halpha : 0 ≤ 1 - alpha)
    (hP : ∀ w y x : ℚ, 0 ≤ w → P y → P x → P ((w * y + 1 * x) / (w + 1)))
    (l : List EF) (hl : ∀ x ∈ l, ∃ p, x = EF.fin p ∧ P p) :
    ∀ st : EF × ℚ, 0 ≤ st.2 →
      (st.1 = EF.nan ∨ ∃ q, st.1 = EF.fin q ∧ P q) →
      ∀ z ∈ ewmGo alpha true st l, ∃ p, z = EF.fin p ∧ P p := by
  induction l with
  | nil => intro st _ _ z hz; simp [ewmGo] at hz
  | cons x rest ih =>
      intro st hw hy z hz
      obtain ⟨p, hp, hPp⟩ := hl x (List.mem_cons_self x rest)
      subst hp
      have hrest : ∀ u ∈ rest, ∃ p, u = EF.fin p ∧ P p :=
        fun u hu => hl u (List.mem_cons_of_mem _ hu)
      rcases hy with hy | ⟨q, hq, hPq⟩
      · -- first observation: the state resets to (x, 1)
        have hstep : ewmStep alpha true st (EF.fin p) = (EF.fin p, 1) := by
          simp [ewmStep, hy, EF.isNaN]
        rw [ewmGo, hstep] at hz
        rcases List.mem_cons.mp hz with hz | hz
        · exact ⟨p, hz, hPp⟩
        · exact ih hrest (EF.fin p, 1) (by norm_num) (Or.inr ⟨p, rfl, hPp⟩) z hz
      · -- running mean update
        have hw' : (0 : ℚ) ≤ st.2 * (1 - alpha) := mul_nonneg hw halpha
        have hden : st.2 * (1 - alpha) + 1 ≠ 0 := by positivity
        have hstep : ewmStep alpha true st (EF.fin p) =
            (EF.fin ((st.2 * (1 - alpha) * q + 1 * p) / (st.2 * (1 - alpha) + 1)),
              st.2 * (1 - alpha) + 1) := by
          simp only [ewmStep, hq, EF.isNaN]
          simp [EF.fin_mul_fin, EF.fin_add_fin, EF.fin_div_fin _ _ hden]
        rw [ewmGo, hstep] at hz
        rcases List.mem_cons.mp hz with hz | hz
        · exact ⟨_, hz, hP _ _ _ hw' hPq hPp⟩
        · exact ih hrest _ (by positivity)
            (Or.inr ⟨_, rfl, hP _ _ _ hw' hPq hPp⟩) z hz

/-- All outputs of the `adjust=True` weighted mean of an all-zero series
are exactly zero. -/
theorem ewmGo_zero (alpha : ℚ) (halpha : 0 ≤ 1 - alpha)
    (l : List EF) (hl : ∀ x ∈ l, x = EF.fin 0) :
    ∀ st : EF × ℚ, 0 ≤ st.2 →
      (st.1 = EF.nan ∨ st.1 = EF.fin 0) →
      ewmGo alpha true st l = List.replicate l.length (EF.fin 0) := by
  induction l with
  | nil => intro st _ _; rfl
  | cons x rest ih =>
      intro st hw hy
      have hx : x = EF.fin 0 := hl x (List.mem_cons_self x rest)
      subst hx
      have hrest : ∀ u ∈ rest, u = EF.fin 0 := fun u hu => hl u (List.mem_cons_of_mem _ hu)
      rcases hy with hy | hy
      · have hstep : ewmStep alpha true st (EF.fin 0) = (EF.fin 0, 1) := by
          simp [ewmStep, hy, EF.isNaN]
        rw [ewmGo, hstep]
        rw [ih hrest (EF.fin 0, 1) (by norm_num) (Or.inr rfl)]
        simp [List.replicate_succ]
      · have hw' : (0 : ℚ) ≤ st.2 * (1 - alpha) := mul_nonneg hw halpha
        have hden : st.2 * (1 - alpha) + 1 ≠ 0 := by positivity
        have hstep : ewmStep alpha true st (EF.fin 0) =
            (EF.fin 0, st.2 * (1 - alpha) + 1) := by
          simp only [ewmStep, hy, EF.isNaN]
          simp [EF.fin_mul_fin, EF.fin_add_fin, EF.fin_div_fin _ _ hden]
        rw [ewmGo, hstep]
        rw [ih hrest (EF.fin 0, st.2 * (1 - alpha) + 1) (by positivity) (Or.inr rfl)]
        simp [List.replicate_succ]

theorem ewmMean_sign (P : ℚ → Prop) (alpha : ℚ) (halpha : 0 ≤ 1 - alpha)
    (hP : ∀ w y x : ℚ, 0 ≤ w → P y → P x → P ((w * y + 1 * x) / (w + 1)))
    (l : List EF) (hl : ∀ x ∈ l, ∃ p, x = EF.fin p ∧ P p) :
    ∀ z ∈ ewmMean alpha true l, ∃ p, z = EF.fin p ∧ P p :=
  ewmGo_sign P alpha halpha hP l hl (EF.nan, 1) (by norm_num) (Or.inl rfl)

theorem ewmMean_zero (alpha : ℚ) (halpha : 0 ≤ 1 - alpha)
    (l : List EF) (hl : ∀ x ∈ l, x = EF.fin 0) :
    ewmMean alpha true l = List.replicate l.length (EF.fin 0) :=
  ewmGo_zero alpha halpha l hl (EF.nan, 1) (by norm_num) (Or.inl rfl)

/-- The smoothing factor coming from `com = w` satisfies `alpha ≤ 1`. -/
theorem alphaW_nonneg (w : Nat) : 0 ≤ 1 - 1 / (1 + w : ℚ) := by
  have h1 : (0 : ℚ) < 1 + w := by positivity
  have h2 : (1 : ℚ) / (1 + w) ≤ 1 := by
    rw [div_le_one h1]
    have : (0 : ℚ) ≤ w := by positivity
    linarith
  linarith

theorem zipWith_eq_replicate {α β γ : Type} (f : α → β → γ) (c : γ)
    (PA : α → Prop) (PB : β → Prop)
    (hf : ∀ a b, PA a → PB b → f a b = c) :
    ∀ (A : List α) (B : List β), (∀ a ∈ A, PA a) → (∀ b ∈ B, PB b) →
      List.zipWith f A B = List.replicate (min A.length B.length) c := by
  intro A
  induction A with
  | nil => intro B _ _; simp
  | cons a A ih =>
      intro B hA hB
      cases B with
      | nil => simp
      | cons b B =>
          have hab : f a b = c :=
            hf a b (hA a (List.mem_cons_self _ _)) (hB b (List.mem_cons_self _ _))
          have htl := ih B (fun u hu => hA u (List.mem_cons_of_mem _ hu))
            (fun u hu => hB u (List.mem_cons_of_mem _ hu))
          simp [hab, htl, Nat.succ_min_succ, List.replicate_succ]

/-! ## Claim C2 (RSI at zero average loss) -/

/-- Claim C2, counterexample: on a strictly increasing series (here
`return_1 = [1, 1]`) the average loss is exactly 0 and `rs` is
infinite, but the `rsi` cell is NaN (since `100*inf/(1+inf)` evaluates
`inf/inf`), not the claimed 100. -/
theorem rsi_zero_loss_cex :
    ((Indicator.apply lgId sqId (.rsi 5) rsiUpTbl).map
        (fun t => t.cellAt ("rsi") 0)).toOption = some EF.nan ∧
      EF.nan ≠ EF.fin 100 := by
  constructor
  · decide
  · decide

/-- Claim C2, amended: for an input whose `return_1` is strictly
positive (a strictly increasing price series), the average loss is
exactly 0 and `rs` is infinite at every row, but the resulting `rsi`
column is NaN (undefined) at every row, not 100; for a strictly
negative `return_1` (a strictly decreasing series) the `rsi` column is
exactly 0 at every row. -/
theorem rsi_saturation_amended (lg : ℚ → EF) (sq : ℚ → ℚ) (w : Nat) (df : Table)
    (r1 : List EF) (hcol : df.getCol? ("return_1") = some r1) :
    ((∀ x ∈ r1, ∃ q : ℚ, x = EF.fin q ∧ 0 < q) →
      List.zipWith (fun a b => (a / b).abs)
          (ewmMean (1 / (1 + w : ℚ)) true (r1.map (fun x => if x.gtZero then x else EF.fin 0)))
          (ewmMean (1 / (1 + w : ℚ)) true (r1.map (fun x => if x.ltZero then x else EF.fin 0)))
        = List.replicate r1.length EF.inf ∧
      Indicator.apply lg sq (.rsi w) df =
        .ok (df.setCol ("rsi") (List.replicate r1.length EF.nan))) ∧
    ((∀ x ∈ r1, ∃ q : ℚ, x = EF.fin q ∧ q < 0) →
      Indicator.apply lg sq (.rsi w) df =
        .ok (df.setCol ("rsi") (List.replicate r1.length (EF.fin 0)))) := by
  have halpha := alphaW_nonneg w
  constructor
  · intro hpos
    have hposClip : ∀ y ∈ r1.map (fun x => if x.gtZero then x else EF.fin 0),
        ∃ p, y = EF.fin p ∧ 0 < p := by
      intro y hy
      obtain ⟨x, hx, rfl⟩ := List.mem_map.mp hy
      obtain ⟨q, rfl, hq⟩ := hpos x hx
      exact ⟨q, by simp [EF.gtZero, hq], hq⟩
    have hnegClip : ∀ y ∈ r1.map (fun x => if x.ltZero then x else EF.fin 0),
        y = EF.fin 0 := by
      intro y hy
      obtain ⟨x, hx, rfl⟩ := List.mem_map.mp hy
      obtain ⟨q, rfl, hq⟩ := hpos x hx
      simp [EF.ltZero, not_lt.mpr hq.le]
    have hnegG : ewmMean (1 / (1 + w : ℚ)) true
        (r1.map (fun x => if x.ltZero then x else EF.fin 0))
        = List.replicate r1.length (EF.fin 0) := by
      have h := ewmMean_zero _ halpha _ hnegClip
      simpa using h
    have hposG := ewmMean_sign (fun q => 0 < q) _ halpha
      (fun wt y x hw hy hx => by
        have h1 : (0 : ℚ) ≤ wt * y := mul_nonneg hw hy.le
        exact div_pos (by linarith) (by linarith)) _ hposClip
    have hrs : List.zipWith (fun a b => (a / b).abs)
        (ewmMean (1 / (1 + w : ℚ)) true (r1.map (fun x => if x.gtZero then x else EF.fin 0)))
        (ewmMean (1 / (1 + w : ℚ)) true (r1.map (fun x => if x.ltZero then x else EF.fin 0)))
        = List.replicate r1.length EF.inf := by
      rw [hnegG]
      have h := zipWith_eq_replicate (fun a b => (a / b).abs) EF.inf
        (fun a => ∃ p, a = EF.fin p ∧ 0 < p) (fun b => b = EF.fin 0)
        (fun a b ha hb => by
          obtain ⟨p, rfl, hp⟩ := ha
          subst hb
          simp [EF.pos_div_zero _ hp, EF.abs_inf])
        (ewmMean (1 / (1 + w : ℚ)) true (r1.map (fun x => if x.gtZero then x else EF.fin 0)))
        (List.replicate r1.length (EF.fin 0))
        hposG (fun b hb => List.eq_of_mem_replicate hb)
      rw [h]
      simp [ewmMean_length]
    refine ⟨hrs, ?_⟩
    simp only [Indicator.apply, hcol]
    rw [hrs]
    simp [List.map_replicate, EF.hundred_mul_inf, EF.one_add_inf, EF.inf_div_inf]
  · intro hneg
    have hposClip : ∀ y ∈ r1.map (fun x => if x.gtZero then x else EF.fin 0),
        y = EF.fin 0 := by
      intro y hy
      obtain ⟨x, hx, rfl⟩ := List.mem_map.mp hy
      obtain ⟨q, rfl, hq⟩ := hneg x hx
      simp [EF.gtZero, not_lt.mpr hq.le]
    have hnegClip : ∀ y ∈ r1.map (fun x => if x.ltZero then x else EF.fin 0),
        ∃ p, y = EF.fin p ∧ p < 0 := by
      intro y hy
      obtain ⟨x, hx, rfl⟩ := List.mem_map.mp hy
      obtain ⟨q, rfl, hq⟩ := hneg x hx
      exact ⟨q, by simp [EF.ltZero, hq], hq⟩
    have hposG : ewmMean (1 / (1 + w : ℚ)) true
        (r1.map (fun x => if x.gtZero then x else EF.fin 0))
        = List.replicate r1.length (EF.fin 0) := by
      have h := ewmMean_zero _ halpha _ hposClip
      simpa using h
    have hnegG := ewmMean_sign (fun q => q < 0) _ halpha
      (fun wt y x hw hy hx => by
        have h1 : wt * y ≤ 0 := mul_nonpos_of_nonneg_of_nonpos hw hy.le
        exact div_neg_of_neg_of_pos (by linarith) (by linarith)) _ hnegClip
    have hrs : List.zipWith (fun a b => (a / b).abs)
        (ewmMean (1 / (1 + w : ℚ)) true (r1.map (fun x => if x.gtZero then x else EF.fin 0)))
        (ewmMean (1 / (1 + w : ℚ)) true (r1.map (fun x => if x.ltZero then x else EF.fin 0)))
        = List.replicate r1.length (EF.fin 0) := by
      rw [hposG]
      have h := zipWith_eq_replicate (fun a b => (a / b).abs) (EF.fin 0)
        (fun a => a = EF.fin 0) (fun b => ∃ p, b = EF.fin p ∧ p < 0)
        (fun a b ha hb => by
          obtain ⟨p, rfl, hp⟩ := hb
          subst ha
          show (EF.fin 0 / EF.fin p).abs = EF.fin 0
          rw [EF.fin_div_fin _ _ hp.ne]
          simp [EF.abs_fin])
        (List.replicate r1.length (EF.fin 0))
        (ewmMean (1 / (1 + w : ℚ)) true (r1.map (fun x => if x.ltZero then x else EF.fin 0)))
        (fun a ha => List.eq_of_mem_replicate ha) hnegG
      rw [h]
      simp [ewmMean_length]
    simp only [Indicator.apply, hcol]
    rw [hrs]
    have hg : (fun r => EF.fin 100 * r / (EF.fin 1 + r)) (EF.fin 0) = EF.fin 0 := by
      show EF.fin 100 * EF.fin 0 / (EF.fin 1 + EF.fin 0) = EF.fin 0
      rw [EF.fin_mul_fin, EF.fin_add_fin]
      rw [EF.fin_div_fin _ _ (by norm_num : (1 + 0 : ℚ) ≠ 0)]
      norm_num
    simp [List.map_replicate, hg]

/-- Witness for `rsi_saturation_amended` at `return_1 = [1, 1]`
(increasing) and `[-1]` (decreasing). -/
theorem rsi_saturation_witness :
    Indicator.apply lgId sqId (.rsi 5) rsiUpTbl =
      .ok (rsiUpTbl.setCol ("rsi") (List.replicate 2 EF.nan)) :=
  ((rsi_saturation_amended lgId sqId 5 rsiUpTbl [EF.fin 1, EF.fin 1] (by decide)).1
    (by
      intro x hx
      rcases List.mem_cons.mp hx with rfl | hx
      · exact ⟨1, rfl, one_pos⟩
      · rcases List.mem_cons.mp hx with rfl | hx
        · exact ⟨1, rfl, one_pos⟩
        · simp at hx)).2

/-! ## Claim C10 (RSI range and where it is undefined) -/

theorem rsiOf_nan : EF.fin 100 * EF.nan / (EF.fin 1 + EF.nan) = EF.nan := rfl

theorem rsiOf_inf : EF.fin 100 * EF.inf / (EF.fin 1 + EF.inf) = EF.nan := by
  rw [EF.hundred_mul_inf, EF.one_add_inf, EF.inf_div_inf]

theorem rsiOf_fin (r : ℚ) (h : 0 ≤ r) :
    EF.fin 100 * EF.fin r / (EF.fin 1 + EF.fin r) = EF.fin (100 * r / (1 + r)) := by
  rw [EF.fin_mul_fin, EF.fin_add_fin, EF.fin_div_fin _ _ (by positivity)]

/-- Claim C10, counterexample: when `return_1` contains an infinite
cell (`rsiInfTbl`, row 1), the exponentially weighted mean of the
negative-clipped returns at row 1 is `-5/11 ≠ 0`, yet the `rsi` cell
there is NaN — so "undefined precisely at rows where the average loss
is 0" fails on such inputs. -/
theorem rsi_undefined_iff_cex :
    (ewmMean (1 / (1 + (5 : Nat) : ℚ)) true
        ([EF.fin (-1), EF.inf].map (fun x => if x.ltZero then x else EF.fin 0))).getD 1 EF.nan
      = EF.fin (-5 / 11) ∧
    EF.fin (-5 / 11) ≠ EF.fin 0 ∧
    ((Indicator.apply lgId sqId (.rsi 5) rsiInfTbl).map
        (fun t => t.cellAt ("rsi") 1)).toOption = some EF.nan := by
  refine ⟨by decide, by decide, by decide⟩

/-- Claim C10, amended (restricted to inputs with no infinite
`return_1` cells; an infinite cell can make `rsi` undefined at a row
with nonzero average loss): every produced `rsi` cell is either NaN or
a finite value in `[0, 100]`, and it is NaN exactly at rows where the
exponentially weighted mean (decay `com = window`, running over the
entire history with no cutoff) of the negative-clipped returns is
exactly 0. -/
theorem rsi_range_amended (lg : ℚ → EF) (sq : ℚ → ℚ) (w : Nat) (df : Table)
    (r1 : List EF) (hcol : df.getCol? ("return_1") = some r1)
    (hfin : ∀ x ∈ r1, x ≠ EF.inf ∧ x ≠ EF.ninf) :
    ∃ rsiCol,
      Indicator.apply lg sq (.rsi w) df = .ok (df.setCol ("rsi") rsiCol) ∧
      rsiCol.length = r1.length ∧
      ∀ i, i < r1.length →
        ((rsiCol.getD i EF.nan = EF.nan ↔
            (ewmMean (1 / (1 + w : ℚ)) true
              (r1.map (fun x => if x.ltZero then x else EF.fin 0))).getD i EF.nan = EF.fin 0) ∧
          (rsiCol.getD i EF.nan ≠ EF.nan →
            ∃ q : ℚ, rsiCol.getD i EF.nan = EF.fin q ∧ 0 ≤ q ∧ q ≤ 100)) := by
  have halpha := alphaW_nonneg w
  have hposClip : ∀ y ∈ r1.map (fun x => if x.gtZero then x else EF.fin 0),
      ∃ p, y = EF.fin p ∧ 0 ≤ p := by
    intro y hy
    obtain ⟨x, hx, rfl⟩ := List.mem_map.mp hy
    obtain ⟨hxi, hxn⟩ := hfin x hx
    cases x with
    | fin q =>
        by_cases hq : 0 < q
        · exact ⟨q, by simp [EF.gtZero, hq], hq.le⟩
        · exact ⟨0, by simp [EF.gtZero, hq], le_refl 0⟩
    | inf => exact absurd rfl hxi
    | ninf => exact absurd rfl hxn
    | nan => exact ⟨0, by simp [EF.gtZero], le_refl 0⟩
  have hnegClip : ∀ y ∈ r1.map (fun x => if x.ltZero then x else EF.fin 0),
      ∃ p, y = EF.fin p ∧ p ≤ 0 := by
    intro y hy
    obtain ⟨x, hx, rfl⟩ := List.mem_map.mp hy
    obtain ⟨hxi, hxn⟩ := hfin x hx
    cases x with
    | fin q =>
        by_cases hq : q < 0
        · exact ⟨q, by simp [EF.ltZero, hq], hq.le⟩
        · exact ⟨0, by simp [EF.ltZero, hq], le_refl 0⟩
    | inf => exact absurd rfl hxi
    | ninf => exact absurd rfl hxn
    | nan => exact ⟨0, by simp [EF.ltZero], le_refl 0⟩
  have hposG := ewmMean_sign (fun q => 0 ≤ q) _ halpha
    (fun wt y x hw hy hx => by
      have h1 : (0 : ℚ) ≤ wt * y := mul_nonneg hw hy
      exact div_nonneg (by linarith) (by linarith)) _ hposClip
  have hnegG := ewmMean_sign (fun q => q ≤ 0) _ halpha
    (fun wt y x hw hy hx => by
      have h1 : wt * y ≤ 0 := mul_nonpos_of_nonneg_of_nonpos hw hy
      exact div_nonpos_of_nonpos_of_nonneg (by linarith) (by linarith)) _ hnegClip
  refine ⟨List.map (fun r => EF.fin 100 * r / (EF.fin 1 + r))
      (List.zipWith (fun a b => (a / b).abs)
        (ewmMean (1 / (1 + w : ℚ)) true (r1.map (fun x => if x.gtZero then x else EF.fin 0)))
        (ewmMean (1 / (1 + w : ℚ)) true (r1.map (fun x => if x.ltZero then x else EF.fin 0)))),
    by simp only [Indicator.apply, hcol], ?_, ?_⟩
  · simp [List.length_map, List.length_zipWith, ewmMean_length]
  · intro i hi
    have hplen : i < (ewmMean (1 / (1 + w : ℚ)) true
        (r1.map (fun x => if x.gtZero then x else EF.fin 0))).length := by
      rw [ewmMean_length, List.length_map]; exact hi
    have hnlen : i < (ewmMean (1 / (1 + w : ℚ)) true
        (r1.map (fun x => if x.ltZero then x else EF.fin 0))).length := by
      rw [ewmMean_length, List.length_map]; exact hi
    obtain ⟨qp, hqp, hqp0⟩ := hposG _ (mem_of_getD _ i EF.nan hplen)
    obtain ⟨qm, hqm, hqm0⟩ := hnegG _ (mem_of_getD _ i EF.nan hnlen)
    have hzlen : i < (List.zipWith (fun a b => (a / b).abs)
        (ewmMean (1 / (1 + w : ℚ)) true (r1.map (fun x => if x.gtZero then x else EF.fin 0)))
        (ewmMean (1 / (1 + w : ℚ)) true (r1.map (fun x => if x.ltZero then x else EF.fin 0)))).length := by
      rw [List.length_zipWith]
      exact lt_min hplen hnlen
    have hcell : (List.map (fun r => EF.fin 100 * r / (EF.fin 1 + r))
          (List.zipWith (fun a b => (a / b).abs)
            (ewmMean (1 / (1 + w : ℚ)) true (r1.map (fun x => if x.gtZero then x else EF.fin 0)))
            (ewmMean (1 / (1 + w : ℚ)) true (r1.map (fun x => if x.ltZero then x else EF.fin 0))))).getD i EF.nan
        = EF.fin 100 * ((ewmMean (1 / (1 + w : ℚ)) true (r1.map (fun x => if x.gtZero then x else EF.fin 0))).getD i EF.nan
            / (ewmMean (1 / (1 + w : ℚ)) true (r1.map (fun x => if x.ltZero then x else EF.fin 0))).getD i EF.nan).abs
          / (EF.fin 1 + ((ewmMean (1 / (1 + w : ℚ)) true (r1.map (fun x => if x.gtZero then x else EF.fin 0))).getD i EF.nan
            / (ewmMean (1 / (1 + w : ℚ)) true (r1.map (fun x => if x.ltZero then x else EF.fin 0))).getD i EF.nan).abs) := by
      rw [getD_map _ _ _ EF.nan _ hzlen,
        getD_zipWith _ _ _ _ EF.nan EF.nan EF.nan hplen hnlen]
    rw [hcell, hqp, hqm]
    rcases eq_or_lt_of_le hqm0 with hqm0 | hqm0
    · -- zero average loss: rsi is NaN
      subst hqm0
      rcases eq_or_lt_of_le hqp0 with hqp0 | hqp0
      · subst hqp0
        rw [EF.zero_div_zero, EF.abs_nan, rsiOf_nan]
        simp [hqm]
      · rw [EF.pos_div_zero _ hqp0, EF.abs_inf, rsiOf_inf]
        simp [hqm]
    · -- nonzero average loss: rsi is finite and in range
      rw [EF.fin_div_fin _ _ hqm0.ne, EF.abs_fin, rsiOf_fin _ (abs_nonneg _)]
      constructor
      · constructor
        · intro h; exact absurd h (by simp)
        · intro h
          exact absurd (EF.fin.inj h) hqm0.ne
      · intro _
        refine ⟨_, rfl, ?_, ?_⟩
        · positivity
        · rw [div_le_iff₀ (by positivity)]
          have := abs_nonneg (qp / qm)
          linarith

/-- Witness for `rsi_range_amended` at `return_1 = [1, 1]`. -/
theorem rsi_range_witness :
    ∃ rsiCol,
      Indicator.apply lgId sqId (.rsi 5) rsiUpTbl = .ok (rsiUpTbl.setCol ("rsi") rsiCol) ∧
      rsiCol.length = ([EF.fin 1, EF.fin 1] : List EF).length ∧
      ∀ i, i < ([EF.fin 1, EF.fin 1] : List EF).length →
        ((rsiCol.getD i EF.nan = EF.nan ↔
            (ewmMean (1 / (1 + (5 : Nat) : ℚ)) true
              (([EF.fin 1, EF.fin 1] : List EF).map
                (fun x => if x.ltZero then x else EF.fin 0))).getD i EF.nan = EF.fin 0) ∧
          (rsiCol.getD i EF.nan ≠ EF.nan →
            ∃ q : ℚ, rsiCol.getD i EF.nan = EF.fin q ∧ 0 ≤ q ∧ q ≤ 100)) :=
  rsi_range_amended lgId sqId 5 rsiUpTbl [EF.fin 1, EF.fin 1] (by decide) (by decide)

/-! ## String facts about the generated column names -/

theorem str_append_cancel (p a b : String) (h : p ++ a = p ++ b) : a = b := by
  have hd := congrArg String.data h
  rw [String.data_append, String.data_append] at hd
  exact String.ext (List.append_cancel_left hd)

theorem str_ne_of_head (a b : String) (h : a.data.head? ≠ b.data.head?) : a ≠ b := by
  intro hab
  exact h (congrArg (fun s => s.data.head?) hab)

theorem head_append (a b : String) (c : Char) (rest : List Char) (h : a.data = c :: rest) :
    (a ++ b).data.head? = some c := by
  rw [String.data_append, h]
  rfl

theorem ret_ne_vol (pre x y : String) :
    pre ++ ("return_") ++ x ≠ pre ++ ("volume_") ++ y := by
  rw [String.append_assoc, String.append_assoc]
  intro h
  have h2 := str_append_cancel _ _ _ h
  exact str_ne_of_head (("return_") ++ x) (("volume_") ++ y)
    (by rw [head_append _ _ 'r' _ rfl, head_append _ _ 'v' _ rfl]; decide) h2

theorem ret_inj (pre x y : String) (h : pre ++ ("return_") ++ x = pre ++ ("return_") ++ y) :
    x = y := by
  rw [String.append_assoc, String.append_assoc] at h
  exact str_append_cancel _ _ _ (str_append_cancel _ _ _ h)

theorem close_ne_ret (pre x : String) : ("Close") ≠ pre ++ ("return_") ++ x := by
  intro h
  have hl := congrArg String.length h
  rw [String.length_append, String.length_append] at hl
  have h1 : ("Close").length = 5 := by decide
  have h2 : ("return_").length = 7 := by decide
  omega

theorem close_ne_vol (pre x : String) : ("Close") ≠ pre ++ ("volume_") ++ x := by
  intro h
  have hl := congrArg String.length h
  rw [String.length_append, String.length_append] at hl
  have h1 : ("Close").length = 5 := by decide
  have h2 : ("volume_").length = 7 := by decide
  omega

theorem volume_ne_ret (pre x : String) : ("Volume") ≠ pre ++ ("return_") ++ x := by
  intro h
  have hl := congrArg String.length h
  rw [String.length_append, String.length_append] at hl
  have h1 : ("Volume").length = 6 := by decide
  have h2 : ("return_").length = 7 := by decide
  omega

theorem volume_ne_vol (pre x : String) : ("Volume") ≠ pre ++ ("volume_") ++ x := by
  intro h
  have hl := congrArg String.length h
  rw [String.length_append, String.length_append] at hl
  have h1 : ("Volume").length = 6 := by decide
  have h2 : ("volume_").length = 7 := by decide
  omega

/-! ## Indexing lemmas for the series operations -/

theorem getD_range_map {β : Type} (f : Nat → β) (n i : Nat) (d : β) (h : i < n) :
    ((List.range n).map f).getD i d = f i := by
  rw [getD_map f _ i 0 d (by simpa using h)]
  congr 1
  rw [List.getD_eq_getElem _ _ (by simpa using h)]
  simp

theorem length_shiftF (h : Nat) (s : List EF) : (shiftF h s).length = s.length := by
  simp [shiftF]

theorem length_shiftBack1 (s : List EF) : (shiftBack1 s).length = s.length := by
  simp [shiftBack1]

theorem length_pctChange (h : Nat) (s : List EF) : (pctChange h s).length = s.length := by
  simp [pctChange, length_shiftF]

theorem getD_shiftF (h : Nat) (s : List EF) (i : Nat) (hi : i < s.length) :
    (shiftF h s).getD i EF.nan = if i < h then EF.nan else s.getD (i - h) EF.nan :=
  getD_range_map _ _ _ _ hi

theorem getD_shiftBack1 (s : List EF) (i : Nat) (hi : i < s.length) :
    (shiftBack1 s).getD i EF.nan = s.getD (i + 1) EF.nan :=
  getD_range_map _ _ _ _ hi

theorem ef_div_nan (a : EF) : a / EF.nan = EF.nan := by cases a <;> rfl

theorem ef_nan_sub_one : EF.nan - EF.fin 1 = EF.nan := rfl

theorem getD_pctChange (h : Nat) (s : List EF) (i : Nat) (hi : i < s.length) :
    (pctChange h s).getD i EF.nan =
      s.getD i EF.nan / (if i < h then EF.nan else s.getD (i - h) EF.nan) - EF.fin 1 := by
  unfold pctChange
  rw [getD_zipWith _ _ _ i EF.nan EF.nan EF.nan hi (by rw [length_shiftF]; exact hi)]
  rw [getD_shiftF h s i hi]

theorem getD_default {α : Type} (l : List α) (i : Nat) (d : α) (hi : l.length ≤ i) :
    l.getD i d = d := by
  induction l generalizing i with
  | nil => simp
  | cons a l ih =>
      cases i with
      | zero => simp at hi
      | succ i => simpa using ih i (by simpa using hi)

/-! ## Lemmas about the loader's feature-derivation loop -/

theorem featureStep_ok (pre : String) (t : Table) (j : Nat) (close vol : List EF)
    (hc : t.getCol? ("Close") = some close) (hv : t.getCol? ("Volume") = some vol) :
    DataLoader.featureStep pre t j =
      .ok ((t.setCol (pre ++ ("return_") ++ toString j) (pctChange j close)).setCol
            (pre ++ ("volume_") ++ toString j) (pctChange j vol)) := by
  have hv1 : (t.setCol (pre ++ ("return_") ++ toString j) (pctChange j close)).getCol?
      ("Volume") = some vol := by
    rw [Table.getCol?_setCol_ne _ _ _ _ (volume_ne_ret pre (toString j))]
    exact hv
  simp only [DataLoader.featureStep, hc, hv1]

theorem featureStep_shape (pre : String) (t t' : Table) (j : Nat)
    (hok : DataLoader.featureStep pre t j = .ok t') :
    ∃ close vol, t.getCol? ("Close") = some close ∧ t.getCol? ("Volume") = some vol ∧
      t' = (t.setCol (pre ++ ("return_") ++ toString j) (pctChange j close)).setCol
            (pre ++ ("volume_") ++ toString j) (pctChange j vol) := by
  cases hc : t.getCol? ("Close") with
  | none => simp [DataLoader.featureStep, hc] at hok
  | some close =>
      cases hv : (t.setCol (pre ++ ("return_") ++ toString j) (pctChange j close)).getCol?
          ("Volume") with
      | none => simp [DataLoader.featureStep, hc, hv] at hok
      | some vol =>
          have hv0 : t.getCol? ("Volume") = some vol := by
            rw [Table.getCol?_setCol_ne _ _ _ _ (volume_ne_ret pre (toString j))] at hv
            exact hv
          rw [featureStep_ok pre t j close vol hc hv0] at hok
          exact ⟨close, vol, rfl, hv0, (Except.ok.inj hok).symm⟩

theorem deriveFeatures_preserve (pre : String) (tfs : List Nat) :
    ∀ (t t' : Table), DataLoader.deriveFeatures pre tfs t = .ok t' →
    ∀ n : String,
      (∀ j ∈ tfs, n ≠ pre ++ ("return_") ++ toString j ∧ n ≠ pre ++ ("volume_") ++ toString j) →
      t'.getCol? n = t.getCol? n := by
  induction tfs with
  | nil =>
      intro t t' hok n _
      unfold DataLoader.deriveFeatures at hok
      rw [Except.ok.inj hok]
  | cons j rest ih =>
      intro t t' hok n hn
      unfold DataLoader.deriveFeatures at hok
      cases hstep : DataLoader.featureStep pre t j with
      | error e => rw [hstep] at hok; exact absurd hok (by simp)
      | ok t1 =>
          rw [hstep] at hok
          obtain ⟨close, vol, hc, hv, ht1⟩ := featureStep_shape pre t t1 j hstep
          have h1 := ih t1 t' hok n (fun u hu => hn u (List.mem_cons_of_mem _ hu))
          obtain ⟨hr, hvn⟩ := hn j (List.mem_cons_self _ _)
          rw [h1, ht1, Table.getCol?_setCol_ne _ _ _ _ hvn, Table.getCol?_setCol_ne _ _ _ _ hr]

theorem deriveFeatures_return_col (pre : String) (tfs : List Nat) :
    ∀ (t t' : Table) (close : List EF),
      t.getCol? ("Close") = some close →
      (tfs.map (fun i => toString i)).Nodup →
      DataLoader.deriveFeatures pre tfs t = .ok t' →
      ∀ i ∈ tfs, t'.getCol? (pre ++ ("return_") ++ toString i) = some (pctChange i close) := by
  induction tfs with
  | nil => intro t t' close _ _ _ i hi; simp at hi
  | cons j rest ih =>
      intro t t' close hc hnd hok i hi
      unfold DataLoader.deriveFeatures at hok
      cases hstep : DataLoader.featureStep pre t j with
      | error e => rw [hstep] at hok; exact absurd hok (by simp)
      | ok t1 =>
          rw [hstep] at hok
          obtain ⟨close', vol, hc', hv, ht1⟩ := featureStep_shape pre t t1 j hstep
          rw [hc] at hc'
          replace hc' := Option.some.inj hc'
          subst hc'
          have hc1 : t1.getCol? ("Close") = some close := by
            rw [ht1, Table.getCol?_setCol_ne _ _ _ _ (close_ne_vol pre (toString j)),
              Table.getCol?_setCol_ne _ _ _ _ (close_ne_ret pre (toString j))]
            exact hc
          rcases List.mem_cons.mp hi with rfl | hi
          · have hval : t1.getCol? (pre ++ ("return_") ++ toString i) =
                some (pctChange i close) := by
              rw [ht1, Table.getCol?_setCol_ne _ _ _ _ (ret_ne_vol pre (toString i) (toString i)),
                Table.getCol?_setCol_self]
            rw [deriveFeatures_preserve pre rest t1 t' hok _ ?_, hval]
            intro u hu
            constructor
            · intro hcontra
              have heq := ret_inj pre (toString i) (toString u) hcontra
              have hmem : toString u ∈ rest.map (fun k => toString k) :=
                List.mem_map.mpr ⟨u, hu, rfl⟩
              rw [← heq] at hmem
              exact (List.nodup_cons.mp hnd).1 hmem
            · exact ret_ne_vol pre (toString i) (toString u)
          · exact ih t1 t' close hc1 (List.nodup_cons.mp hnd).2 hok i hi

/-! ## Claim C3 (the forward target) -/

/-- Claim C3 (confirmed): immediately after the derive-target step, the
`forward_return` column holds, at every row `i` but the last,
`Close[i+1]/Close[i] - 1` — the simple return realized between bar `i`
and bar `i+1` — and NaN at the last row; moreover the feature columns
the loader later derives are exactly percent changes of the original
`Close` column, so `forward_return` never enters any feature
computation. -/
theorem forward_return_correct (df : Table) (close : List EF)
    (hclose : df.getCol? ("Close") = some close) :
    ∃ t, DataLoader.deriveTarget df = .ok t ∧
      ∃ fr, t.getCol? ("forward_return") = some fr ∧
        fr.length = close.length ∧
        (∀ i, i + 1 < close.length →
          fr.getD i EF.nan = close.getD (i + 1) EF.nan / close.getD i EF.nan - EF.fin 1) ∧
        (0 < close.length → fr.getD (close.length - 1) EF.nan = EF.nan) ∧
        (∀ tfs t', (tfs.map (fun i => toString i)).Nodup →
          DataLoader.deriveFeatures ("") tfs t = .ok t' →
          ∀ i ∈ tfs,
            t'.getCol? (("") ++ ("return_") ++ toString i) = some (pctChange i close)) := by
  refine ⟨df.setCol ("forward_return") (shiftBack1 (pctChange 1 close)),
    by simp only [DataLoader.deriveTarget, hclose], shiftBack1 (pctChange 1 close),
    Table.getCol?_setCol_self _ _ _, ?_, ?_, ?_, ?_⟩
  · rw [length_shiftBack1, length_pctChange]
  · intro i hi
    have hi1 : i < (pctChange 1 close).length := by
      rw [length_pctChange]; omega
    rw [getD_shiftBack1 _ i hi1, getD_pctChange 1 close (i + 1) (by rw [length_pctChange] at hi1; omega)]
    simp
  · intro hpos
    have hlt : close.length - 1 < (pctChange 1 close).length := by
      rw [length_pctChange]; omega
    rw [getD_shiftBack1 _ _ hlt, getD_default _ _ _ (by rw [length_pctChange]; omega)]
  · intro tfs t' hnd hok i hi
    have hc : (df.setCol ("forward_return") (shiftBack1 (pctChange 1 close))).getCol?
        ("Close") = some close := by
      rw [Table.getCol?_setCol_ne _ _ _ _ (by decide : ("Close" : String) ≠ "forward_return")]
      exact hclose
    exact deriveFeatures_return_col ("") tfs _ t' close hc hnd hok i hi

/-- Witness for `forward_return_correct` on the 3-row synthetic table. -/
theorem forward_return_witness :
    ∃ t, DataLoader.deriveTarget (assetUp 3) = .ok t ∧
      ∃ fr, t.getCol? ("forward_return") = some fr ∧
        fr.length = (pricesUp 3).length ∧
        (∀ i, i + 1 < (pricesUp 3).length →
          fr.getD i EF.nan =
            (pricesUp 3).getD (i + 1) EF.nan / (pricesUp 3).getD i EF.nan - EF.fin 1) ∧
        (0 < (pricesUp 3).length → fr.getD ((pricesUp 3).length - 1) EF.nan = EF.nan) ∧
        (∀ tfs t', (tfs.map (fun i => toString i)).Nodup →
          DataLoader.deriveFeatures ("") tfs t = .ok t' →
          ∀ i ∈ tfs,
            t'.getCol? (("") ++ ("return_") ++ toString i) = some (pctChange i (pricesUp 3))) :=
  forward_return_correct (assetUp 3) (pricesUp 3) (by decide)

/-! ## Claim C4 (the in_place flag and copy semantics) -/

/-- Claim C4, counterexample: `DataLoader.__init__` takes no `in_place`
parameter (its parameters are exactly `provider, asset, benchmark_asset,
start_date, end_date, freq, timeframes`), so the Loader does not accept
the flag the claim attributes to it. -/
theorem loader_no_in_place_cex : ("in_place") ∉ DataLoader.initParams := by decide

/-- Claim C4, amended: every indicator stage accepts an `in_place`
constructor flag, and with `in_place = False` (the default) `apply`
works on a deep copy, leaving the caller's table unchanged; the
`DataLoader`, however, takes no `in_place` flag (and its `load()`
receives no caller table at all). -/
theorem in_place_copy_amended :
    (∀ ind : Indicator, ("in_place") ∈ ind.initParams) ∧
    (∀ (lg : ℚ → EF) (sq : ℚ → ℚ) (ind : Indicator) (df : Table) (out : Table × Table),
      Indicator.applyEffect lg sq ind false df = .ok out → out.2 = df) := by
  constructor
  · intro ind; cases ind <;> simp [Indicator.initParams]
  · intro lg sq ind df out hok
    unfold Indicator.applyEffect at hok
    cases happ : ind.apply lg sq df with
    | error e => rw [happ] at hok; exact absurd hok (by simp [Except.map])
    | ok r =>
        rw [happ] at hok
        have h2 : (r, df) = out := by simpa [Except.map] using hok
        rw [← h2]

/-- Witness for `in_place_copy_amended` at the RSI stage on a one-row
table. -/
theorem in_place_copy_witness :
    (tinyR1.setCol ("rsi") [EF.nan], tinyR1).2 = tinyR1 :=
  (in_place_copy_amended).2 lgId sqId (.rsi 5) tinyR1
    (tinyR1.setCol ("rsi") [EF.nan], tinyR1) rfl

/-! ## Claim C8 (missing prerequisite columns) -/

theorem hasCol_false_iff (t : Table) (n : String) :
    t.hasCol n = false ↔ t.getCol? n = none := by
  unfold Table.hasCol Table.getCol?
  cases hf : t.cols.find? (fun c => c.1 = n) <;> simp [hf]

theorem volLoop_ok_of_hasCol (lg : ℚ → EF) (sq : ℚ → ℚ) (tfs : List Nat) :
    ∀ t : Table, t.hasCol ("return_1") = true → ∃ t', volLoop lg sq tfs t = .ok t' := by
  induction tfs with
  | nil => intro t _; exact ⟨t, rfl⟩
  | cons i rest ih =>
      intro t ht
      obtain ⟨r1, hr1⟩ := (Table.hasCol_iff t _).mp ht
      obtain ⟨t', ht'⟩ := ih (t.setCol (("volatility_") ++ toString i)
        (rollingStd sq i (r1.map (npLog1p lg)))) (Table.hasCol_setCol _ _ _ _ ht)
      exact ⟨t', by rw [volLoop, hr1]; exact ht'⟩

theorem volLoop_err_of_missing (lg : ℚ → EF) (sq : ℚ → ℚ) (i : Nat) (rest : List Nat)
    (t : Table) (h : t.hasCol ("return_1") = false) :
    volLoop lg sq (i :: rest) t = .error (.missingColumn ("return_1")) := by
  rw [volLoop, (hasCol_false_iff t _).mp h]

/-- Claim C8 (confirmed): each stage's `apply` fails with a
missing-column error (the `KeyError` on the named column, the spec's
`MissingColumn`) exactly when its named prerequisite column —
`return_1` for Volatility and RSI, `Close` for MACD and Bollinger — is
absent; when it is present no such error is raised.  For the
Volatility stage the column access sits inside the per-timeframe loop,
so the hypothesis asks that the configured timeframe list be nonempty
(the default `[5,10,20,40]` is). -/
theorem missing_column_iff (lg : ℚ → EF) (sq : ℚ → ℚ) (ind : Indicator) (df : Table)
    (hcfg : ∀ tfs, ind = .volatility tfs → tfs ≠ []) :
    Indicator.apply lg sq ind df = .error (.missingColumn (ind.requiredCol)) ↔
      df.hasCol (ind.requiredCol) = false := by
  cases ind with
  | volatility tfs =>
      simp only [Indicator.requiredCol]
      constructor
      · intro herr
        cases hhc : df.hasCol ("return_1") with
        | false => rfl
        | true =>
            obtain ⟨t', ht'⟩ := volLoop_ok_of_hasCol lg sq tfs df hhc
            rw [Indicator.apply] at herr
            rw [ht'] at herr
            exact absurd herr (by simp)
      · intro hmiss
        cases tfs with
        | nil => exact absurd rfl (hcfg [] rfl)
        | cons i rest =>
            rw [Indicator.apply]
            exact volLoop_err_of_missing lg sq i rest df hmiss
  | macd =>
      simp only [Indicator.requiredCol]
      cases hv : df.getCol? ("Close") with
      | none =>
          simp only [Indicator.apply, hv]
          simp [hasCol_false_iff, hv]
      | some close =>
          simp only [Indicator.apply, hv]
          constructor
          · intro h; exact absurd h (by simp)
          · intro h; rw [(hasCol_false_iff df _).mp h] at hv; exact absurd hv (by simp)
  | rsi w =>
      simp only [Indicator.requiredCol]
      cases hv : df.getCol? ("return_1") with
      | none =>
          simp only [Indicator.apply, hv]
          simp [hasCol_false_iff, hv]
      | some r1 =>
          simp only [Indicator.apply, hv]
          constructor
          · intro h; exact absurd h (by simp)
          · intro h; rw [(hasCol_false_iff df _).mp h] at hv; exact absurd hv (by simp)
  | bollingerBands w =>
      simp only [Indicator.requiredCol]
      cases hv : df.getCol? ("Close") with
      | none =>
          simp only [Indicator.apply, hv]
          simp [hasCol_false_iff, hv]
      | some close =>
          simp only [Indicator.apply, hv]
          constructor
          · intro h; exact absurd h (by simp)
          · intro h; rw [(hasCol_false_iff df _).mp h] at hv; exact absurd hv (by simp)

/-- Witness for `missing_column_iff`: RSI applied to a table carrying
only a `Close` column. -/
theorem missing_column_witness :
    Indicator.apply lgId sqId (.rsi 5) mergeAsset =
        .error (.missingColumn ((Indicator.rsi 5).requiredCol)) ↔
      mergeAsset.hasCol ((Indicator.rsi 5).requiredCol) = false :=
  missing_column_iff lgId sqId (.rsi 5) mergeAsset (fun _ h => Indicator.noConfusion h)

/-! ## Claim C9 (windows and horizons that are degenerate) -/

/-- Claim C9, counterexample: no `InvalidWindow` failure exists.  A
rolling window of 5 on a 3-row series succeeds and yields an
all-undefined column; a percent change with horizon 0 yields an
all-zero column; a percent change with horizon 5 on 3 rows yields an
all-undefined column — none of them fails. -/
theorem invalid_window_cex :
    (Indicator.apply lgId sqId (.volatility [5]) r1Three).toOption.map
        (fun t => t.getCol? (("volatility_") ++ toString 5)) =
      some (some [EF.nan, EF.nan, EF.nan]) ∧
    pctChange 0 [EF.fin 2, EF.fin 4] = [EF.fin 0, EF.fin 0] ∧
    pctChange 5 (pricesUp 3) = [EF.nan, EF.nan, EF.nan] := by
  refine ⟨by decide, by decide, by decide⟩

/-- Claim C9, amended: the series computations raise no `InvalidWindow`
error for degenerate parameters; a percent change whose horizon is at
least the sequence length returns an all-undefined column, and a
rolling standard deviation whose window exceeds the sequence length
returns an all-undefined column, both silently. -/
theorem invalid_window_amended :
    (∀ (s : List EF) (h : Nat), s.length ≤ h →
      pctChange h s = List.replicate s.length EF.nan) ∧
    (∀ (sq : ℚ → ℚ) (w : Nat) (s : List EF), s.length < w →
      rollingStd sq w s = List.replicate s.length EF.nan) := by
  constructor
  · intro s h hle
    apply List.ext_getElem
    · simp [length_pctChange]
    · intro i h1 h2
      rw [← List.getD_eq_getElem _ EF.nan h1]
      have hi : i < s.length := by rwa [length_pctChange] at h1
      rw [getD_pctChange h s i hi, if_pos (by omega), ef_div_nan, ef_nan_sub_one]
      simp
  · intro sq w s hlt
    apply List.ext_getElem
    · simp [rollingStd]
    · intro i h1 h2
      rw [← List.getD_eq_getElem _ EF.nan h1]
      have hi : i < s.length := by simpa [rollingStd] using h1
      unfold rollingStd
      rw [getD_range_map _ _ _ _ hi, if_pos (Or.inl (by omega))]
      simp

/-- Witness for `invalid_window_amended` at horizon and window 5 on a
3-row series. -/
theorem invalid_window_witness :
    pctChange 5 (pricesUp 3) = List.replicate (pricesUp 3).length EF.nan ∧
    rollingStd sqId 5 (pricesUp 3) = List.replicate (pricesUp 3).length EF.nan :=
  ⟨(invalid_window_amended).1 (pricesUp 3) 5 (by decide),
   (invalid_window_amended).2 sqId 5 (pricesUp 3) (by decide)⟩

/-! ## Claim C5 (no EmptyResult error exists) -/

theorem deriveFeatures_total (pre : String) (tfs : List Nat) :
    ∀ t : Table, t.hasCol ("Close") = true → t.hasCol ("Volume") = true →
      ∃ t', DataLoader.deriveFeatures pre tfs t = .ok t' := by
  induction tfs with
  | nil => intro t _ _; exact ⟨t, rfl⟩
  | cons j rest ih =>
      intro t hc hv
      obtain ⟨close, hclose⟩ := (Table.hasCol_iff t _).mp hc
      obtain ⟨vol, hvol⟩ := (Table.hasCol_iff t _).mp hv
      have hstep := featureStep_ok pre t j close vol hclose hvol
      obtain ⟨t', ht'⟩ := ih ((t.setCol (pre ++ ("return_") ++ toString j) (pctChange j close)).setCol
          (pre ++ ("volume_") ++ toString j) (pctChange j vol))
        (Table.hasCol_setCol _ _ _ _ (Table.hasCol_setCol _ _ _ _ hc))
        (Table.hasCol_setCol _ _ _ _ (Table.hasCol_setCol _ _ _ _ hv))
      refine ⟨t', ?_⟩
      unfold DataLoader.deriveFeatures
      rw [hstep]
      exact ht'

/-- Claim C5, counterexample: with only 3 rows of history and horizon
set `{1, 5}` (a horizon at least as large as the history), `load()`
silently returns an empty table — there is no `EmptyResult` error in
the code. -/
theorem empty_result_cex :
    ((DataLoader.load (assetUp 3) (assetUp 3) [1, 5]).map Table.rowCount).toOption = some 0 := by
  decide

/-- Claim C5, amended: `load()` never raises an `EmptyResult` error:
whenever both downloaded tables carry `Close` and `Volume` columns it
returns a table — even when the cleaning step has removed every row, in
which case the returned table is silently empty. -/
theorem load_total_amended (a b : Table) (tfs : List Nat)
    (hac : a.hasCol ("Close") = true) (hav : a.hasCol ("Volume") = true)
    (hbc : b.hasCol ("Close") = true) (hbv : b.hasCol ("Volume") = true) :
    ∃ t, DataLoader.load a b tfs = .ok t := by
  obtain ⟨close, hclose⟩ := (Table.hasCol_iff a _).mp hac
  have h1 : DataLoader.deriveTarget a =
      .ok (a.setCol ("forward_return") (shiftBack1 (pctChange 1 close))) := by
    simp only [DataLoader.deriveTarget, hclose]
  obtain ⟨t1, ht1⟩ := deriveFeatures_total ("") tfs
    (a.setCol ("forward_return") (shiftBack1 (pctChange 1 close)))
    (Table.hasCol_setCol _ _ _ _ hac) (Table.hasCol_setCol _ _ _ _ hav)
  obtain ⟨t2, ht2⟩ := deriveFeatures_total ("benchmark_") tfs b hbc hbv
  refine ⟨DataLoader.clean (DataLoader.mergeBenchmark t1 t2), ?_⟩
  unfold DataLoader.load
  rw [h1]
  show DataLoader.deriveFeatures ("") tfs _ >>= _ = _
  rw [ht1]
  show DataLoader.deriveFeatures ("benchmark_") tfs b >>= _ = _
  rw [ht2]
  rfl

/-- Witness for `load_total_amended` on the 3-row synthetic tables. -/
theorem load_total_witness :
    ∃ t, DataLoader.load (assetUp 3) (assetUp 3) [1, 5] = .ok t :=
  load_total_amended (assetUp 3) (assetUp 3) [1, 5]
    (by decide) (by decide) (by decide) (by decide)

/-! ## Claim C6 (the benchmark merge) -/

theorem getCol?_merge (df bench : Table) (n : String) :
    (DataLoader.mergeBenchmark df bench).getCol? n =
      (df.getCol? n).or
        (((bench.cols.filter (fun c => DataLoader.strStarts ("benchmark_").data c.1.data)).find?
            (fun c => c.1 = n)).map
          (fun c => benchJoinCol bench.index c.2 df.index)) := by
  show ((df.cols ++ _).find? _).map _ = _
  rw [List.find?_append]
  cases hd : df.cols.find? (fun c => decide (c.1 = n)) with
  | some v =>
      simp [Table.getCol?, hd, Option.or]
  | none =>
      show (Option.or none _).map _ = Option.or (Option.map _ (df.cols.find? _)) _
      rw [hd]
      simp only [Option.none_or, Option.map_none]
      rw [List.find?_map]
      cases hf : (bench.cols.filter (fun c => DataLoader.strStarts ("benchmark_").data c.1.data)).find?
          (fun c => decide (c.1 = n)) with
      | none =>
          have : (bench.cols.filter (fun c => DataLoader.strStarts ("benchmark_").data c.1.data)).find?
              ((fun (c : String × List EF) => decide (c.1 = n)) ∘
                (fun c => (c.1, df.index.map (fun ts =>
                  match bench.index.findIdx? (fun x => x == ts) with
                  | some j => c.2.getD j EF.nan
                  | none => EF.nan)))) = none := hf
          rw [this]
          rfl
      | some c =>
          have : (bench.cols.filter (fun c => DataLoader.strStarts ("benchmark_").data c.1.data)).find?
              ((fun (c : String × List EF) => decide (c.1 = n)) ∘
                (fun c => (c.1, df.index.map (fun ts =>
                  match bench.index.findIdx? (fun x => x == ts) with
                  | some j => c.2.getD j EF.nan
                  | none => EF.nan)))) = some c := hf
          rw [this]
          rfl

theorem findIdx?_nodup_getD (l : List Int) : ∀ j : Nat, l.Nodup → j < l.length →
    l.findIdx? (fun x => x == l.getD j 0) = some j := by
  induction l with
  | nil => intro j _ hj; simp at hj
  | cons a l ih =>
      intro j hnd hj
      cases j with
      | zero => simp
      | succ j =>
          have hjl : j < l.length := by simpa using hj
          have hmem : l.getD j 0 ∈ l := mem_of_getD l j 0 hjl
          simp only [List.getD_cons_succ]
          rw [List.findIdx?_cons]
          rw [if_neg (by
            simp only [beq_iff_eq]
            intro h
            rw [h] at hnd
            exact (List.nodup_cons.mp hnd).1 hmem)]
          rw [List.findIdx?_start_succ, ih j (List.nodup_cons.mp hnd).2 hjl]
          rfl

/-- Claim C6, counterexample: the benchmark table `mergeBench` has
timestamp 1 in its index, yet the merged `benchmark_return_1` cell at
that timestamp is NaN (the benchmark's own cell there is NaN), so "a
benchmark-prefixed cell is defined at a timestamp iff that timestamp
exists in the benchmark table" fails in the only-if direction. -/
theorem merge_defined_iff_cex :
    ((1 : Int) ∈ mergeBench.index) ∧
    (DataLoader.mergeBenchmark mergeAsset mergeBench).cellAt ("benchmark_return_1") 0 = EF.nan := by
  refine ⟨by decide, by decide⟩

/-- Claim C6, amended: the merge keeps every asset row (the index and
all asset columns are unchanged), appends exactly the
benchmark-prefixed benchmark columns (a non-prefixed name that is not
an asset column never appears), and each appended column is the
left-join of the benchmark's column onto the asset timestamps: NaN at a
timestamp missing from the benchmark index, and the benchmark's own
cell — which may itself be undefined — at a timestamp it contains. -/
theorem merge_left_join_amended (df bench : Table) :
    (DataLoader.mergeBenchmark df bench).index = df.index ∧
    (∀ n v, df.getCol? n = some v →
      (DataLoader.mergeBenchmark df bench).getCol? n = some v) ∧
    (∀ n : String, DataLoader.strStarts ("benchmark_").data n.data = false →
      (DataLoader.mergeBenchmark df bench).getCol? n = df.getCol? n) ∧
    (∀ n : String, df.getCol? n = none →
      (DataLoader.mergeBenchmark df bench).getCol? n =
        ((bench.cols.filter (fun c => DataLoader.strStarts ("benchmark_").data c.1.data)).find?
            (fun c => c.1 = n)).map
          (fun c => benchJoinCol bench.index c.2 df.index)) ∧
    (∀ (vals : List EF) (i : Nat), i < df.index.length →
      df.index.getD i 0 ∉ bench.index →
      (benchJoinCol bench.index vals df.index).getD i EF.nan = EF.nan) ∧
    (∀ (vals : List EF) (j : Nat), bench.index.Nodup → j < bench.index.length →
      ∀ i, i < df.index.length → df.index.getD i 0 = bench.index.getD j 0 →
      (benchJoinCol bench.index vals df.index).getD i EF.nan = vals.getD j EF.nan) := by
  refine ⟨rfl, ?_, ?_, ?_, ?_, ?_⟩
  · intro n v hv
    rw [getCol?_merge, hv]
    rfl
  · intro n hpre
    rw [getCol?_merge]
    cases hd : df.getCol? n with
    | some v => rfl
    | none =>
        have hnone : (bench.cols.filter
            (fun c => DataLoader.strStarts ("benchmark_").data c.1.data)).find?
            (fun c => c.1 = n) = none := by
          rw [List.find?_eq_none]
          intro c hc
          simp only [decide_eq_true_eq]
          intro hcn
          have hcpre := (List.mem_filter.mp hc).2
          rw [hcn, hpre] at hcpre
          exact Bool.noConfusion hcpre
        rw [hnone]
        rfl
  · intro n hd
    rw [getCol?_merge, hd]
    rfl
  · intro vals i hi hmem
    unfold benchJoinCol
    rw [getD_map _ _ _ (0 : Int) _ hi]
    have : bench.index.findIdx? (fun x => x == df.index.getD i 0) = none := by
      rw [List.findIdx?_eq_none_iff]
      intro x hx
      simp only [beq_eq_false_iff_ne, ne_eq]
      intro hxe
      rw [← hxe] at hmem
      exact hmem hx
    rw [this]
  · intro vals j hnd hj i hi hts
    unfold benchJoinCol
    rw [getD_map _ _ _ (0 : Int) _ hi, hts, findIdx?_nodup_getD bench.index j hnd hj]

/-- Witness for `merge_left_join_amended` on the concrete
`mergeAsset`/`mergeBench` pair. -/
theorem merge_left_join_witness :
    (DataLoader.mergeBenchmark mergeAsset mergeBench).getCol? ("Close") =
        some [EF.fin 10, EF.fin 11, EF.fin 12] ∧
    (benchJoinCol mergeBench.index [EF.nan, EF.fin 1] mergeAsset.index).getD 1 EF.nan =
        EF.nan ∧
    (benchJoinCol mergeBench.index [EF.nan, EF.fin 1] mergeAsset.index).getD 2 EF.nan =
        EF.fin 1 := by
  have h := merge_left_join_amended mergeAsset mergeBench
  refine ⟨h.2.1 ("Close") [EF.fin 10, EF.fin 11, EF.fin 12] (by decide), ?_, ?_⟩
  · exact h.2.2.2.2.1 [EF.nan, EF.fin 1] 1 (by decide) (by decide)
  · exact h.2.2.2.2.2 [EF.nan, EF.fin 1] 1 (by decide) (by decide) 2 (by decide) (by decide)

/-! ## Claim C1 (the end-to-end 100-row scenario) -/

set_option maxRecDepth 1000000

/-- Kernel evaluation of the whole pipeline on the spec's synthetic
scenario: 100 daily rows, prices rising 1% per bar, constant volume,
identical benchmark, horizon set `{1, 5}`.  The cleaned table has 100
rows (interpolation back- and forward-fills the boundary gaps before
`dropna` runs), only finite cells, and exactly the 14 expected
columns. -/
theorem load100_tuple :
    (DataLoader.load (assetUp 100) (assetUp 100) [1, 5]).toOption.map
        (fun t => (t.rowCount, t.allCellsFinite, t.names)) = some (100, true, c1Names) := by
  decide

/-- Claim C1, counterexample: on the spec's 100-row scenario the
cleaned table has 100 rows, not 100 − 5 − 1 = 94: the linear
interpolation (limit_direction="both") fills the leading
feature-window gaps and the trailing target gap before `dropna` runs,
so no row is dropped. -/
theorem load_rowcount_cex :
    ¬ ((DataLoader.load (assetUp 100) (assetUp 100) [1, 5]).toOption.map Table.rowCount
        = some 94) := by
  intro h
  have h2 := load100_tuple
  cases hl : DataLoader.load (assetUp 100) (assetUp 100) [1, 5] with
  | error e =>
      rw [hl] at h
      simp [Except.toOption] at h
  | ok t =>
      rw [hl] at h h2
      simp [Except.toOption] at h h2
      omega

/-- Claim C1, amended: the cleaning step drops exactly the rows still
containing an undefined value after interpolation — but since the
interpolation fills in both directions, the leading rows of the
longest-horizon window and the trailing target row are filled by
constant extension rather than dropped: for the 100-row 1%-per-bar
scenario with horizon set `{1, 5}`, `load()` returns a table with no
undefined or infinite cells, the expected 14 columns, and all 100
rows. -/
theorem load_end_to_end_amended :
    (DataLoader.load (assetUp 100) (assetUp 100) [1, 5]).toOption.map
        (fun t => (t.rowCount, t.allCellsFinite, t.names)) = some (100, true, c1Names) :=
  load100_tuple

/-! ## Claim C7: name disjointness of the four stages -/

theorem vol_ne_return (x : String) : ("return_1") ≠ ("volatility_") ++ x := by
  intro h
  have hl := congrArg String.length h
  rw [String.length_append] at hl
  have h1 : ("return_1").length = 8 := by decide
  have h2 : ("volatility_").length = 11 := by decide
  omega

theorem vol_ne_close (x : String) : ("Close") ≠ ("volatility_") ++ x := by
  intro h
  have hl := congrArg String.length h
  rw [String.length_append] at hl
  have h1 : ("Close").length = 5 := by decide
  have h2 : ("volatility_").length = 11 := by decide
  omega

theorem vol_ne_fixed (m : String) (hm : m.data.head? ≠ some 'v') (x : String) :
    ("volatility_") ++ x ≠ m := by
  intro h
  exact hm (by rw [← h]; exact head_append _ _ 'v' _ rfl)

theorem writeNames_avoid_base (u : Indicator) :
    ∀ n ∈ u.writeNames, n ≠ ("return_1") ∧ n ≠ ("Close") := by
  cases u with
  | volatility tfs =>
      intro n hn
      obtain ⟨i, _, rfl⟩ := List.mem_map.mp hn
      exact ⟨fun h => vol_ne_return (toString i) h.symm, fun h => vol_ne_close (toString i) h.symm⟩
  | macd => intro n hn; fin_cases hn <;> exact ⟨by decide, by decide⟩
  | rsi w => intro n hn; fin_cases hn <;> exact ⟨by decide, by decide⟩
  | bollingerBands w => intro n hn; fin_cases hn <;> exact ⟨by decide, by decide⟩

theorem writeNames_disjoint (s t : Indicator) (hk : s.kind ≠ t.kind) :
    ∀ n ∈ s.writeNames, n ∉ t.writeNames := by
  have hvol : ∀ (i : Nat) (u : Indicator), u.kind ≠ 0 →
      ("volatility_") ++ toString i ∉ u.writeNames := by
    intro i u hu hmem
    cases u with
    | volatility _ => exact hu rfl
    | macd =>
        revert hmem
        have : ∀ m ∈ Indicator.macd.writeNames, ("volatility_") ++ toString i ≠ m := by
          intro m hm
          fin_cases hm <;> exact vol_ne_fixed _ (by decide) (toString i)
        intro hmem
        exact this _ hmem rfl
    | rsi _ =>
        revert hmem
        have : ∀ m ∈ (Indicator.rsi 0).writeNames, ("volatility_") ++ toString i ≠ m := by
          intro m hm
          fin_cases hm <;> exact vol_ne_fixed _ (by decide) (toString i)
        intro hmem
        exact this _ hmem rfl
    | bollingerBands _ =>
        revert hmem
        have : ∀ m ∈ (Indicator.bollingerBands 0).writeNames, ("volatility_") ++ toString i ≠ m := by
          intro m hm
          fin_cases hm <;> exact vol_ne_fixed _ (by decide) (toString i)
        intro hmem
        exact this _ hmem rfl
  cases s with
  | volatility tfs =>
      intro n hn
      obtain ⟨i, _, rfl⟩ := List.mem_map.mp hn
      exact hvol i t (by
        intro h
        exact hk (by rw [Indicator.kind, h]))
  | macd =>
      intro n hn hmem
      cases t with
      | volatility _ =>
          obtain ⟨i, _, rfl⟩ := List.mem_map.mp hmem
          exact hvol i .macd (by decide) hn
      | macd => exact hk rfl
      | rsi _ => fin_cases hn <;> simp [Indicator.writeNames] at hmem
      | bollingerBands _ => fin_cases hn <;> simp [Indicator.writeNames] at hmem
  | rsi w =>
      intro n hn hmem
      cases t with
      | volatility _ =>
          obtain ⟨i, _, rfl⟩ := List.mem_map.mp hmem
          exact hvol i (.rsi w) (by simp [Indicator.kind]) hn
      | macd => fin_cases hn <;> simp [Indicator.writeNames] at hmem
      | rsi _ => exact hk rfl
      | bollingerBands _ => fin_cases hn <;> simp [Indicator.writeNames] at hmem
  | bollingerBands w =>
      intro n hn hmem
      cases t with
      | volatility _ =>
          obtain ⟨i, _, rfl⟩ := List.mem_map.mp hmem
          exact hvol i (.bollingerBands w) (by simp [Indicator.kind]) hn
      | macd => fin_cases hn <;> simp [Indicator.writeNames] at hmem
      | rsi _ => fin_cases hn <;> simp [Indicator.writeNames] at hmem
      | bollingerBands _ => exact hk rfl

theorem requiredCol_base (u : Indicator) :
    u.requiredCol = ("return_1") ∨ u.requiredCol = ("Close") := by
  cases u <;> simp [Indicator.requiredCol]

/-! ## Claim C7: behavior of each stage's apply -/

theorem volLoop_preserve (lg : ℚ → EF) (sq : ℚ → ℚ) (tfs : List Nat) :
    ∀ t t', volLoop lg sq tfs t = .ok t' →
    ∀ n : String, (∀ i ∈ tfs, n ≠ ("volatility_") ++ toString i) →
    t'.getCol? n = t.getCol? n := by
  induction tfs with
  | nil =>
      intro t t' h n _
      rw [volLoop] at h
      rw [Except.ok.inj h]
  | cons i rest ih =>
      intro t t' h n hn
      cases hr1 : t.getCol? ("return_1") with
      | none => rw [volLoop, hr1] at h; exact absurd h (by simp)
      | some r1 =>
          rw [volLoop, hr1] at h
          rw [ih _ _ h n (fun u hu => hn u (List.mem_cons_of_mem _ hu)),
            Table.getCol?_setCol_ne _ _ _ _ (hn i (List.mem_cons_self _ _))]

theorem volLoop_index (lg : ℚ → EF) (sq : ℚ → ℚ) (tfs : List Nat) :
    ∀ t t', volLoop lg sq tfs t = .ok t' → t'.index = t.index := by
  induction tfs with
  | nil =>
      intro t t' h
      rw [volLoop] at h
      rw [Except.ok.inj h]
  | cons i rest ih =>
      intro t t' h
      cases hr1 : t.getCol? ("return_1") with
      | none => rw [volLoop, hr1] at h; exact absurd h (by simp)
      | some r1 =>
          rw [volLoop, hr1] at h
          rw [ih _ _ h, Table.index_setCol]

theorem volLoop_det (lg : ℚ → EF) (sq : ℚ → ℚ) (tfs : List Nat) :
    ∀ d1 d2 o1 o2, volLoop lg sq tfs d1 = .ok o1 → volLoop lg sq tfs d2 = .ok o2 →
    d1.getCol? ("return_1") = d2.getCol? ("return_1") →
    ∀ n : String, (∃ i, i ∈ tfs ∧ n = ("volatility_") ++ toString i) →
    o1.getCol? n = o2.getCol? n := by
  induction tfs with
  | nil =>
      intro d1 d2 o1 o2 _ _ _ n hn
      obtain ⟨i, hi, _⟩ := hn
      simp at hi
  | cons i rest ih =>
      intro d1 d2 o1 o2 h1 h2 hreq n hn
      cases hr1 : d1.getCol? ("return_1") with
      | none => rw [volLoop, hr1] at h1; exact absurd h1 (by simp)
      | some r1 =>
          have hr2 : d2.getCol? ("return_1") = some r1 := by rw [← hreq]; exact hr1
          rw [volLoop, hr1] at h1
          rw [volLoop, hr2] at h2
          have hreq' : (d1.setCol (("volatility_") ++ toString i)
                (rollingStd sq i (r1.map (npLog1p lg)))).getCol? ("return_1") =
              (d2.setCol (("volatility_") ++ toString i)
                (rollingStd sq i (r1.map (npLog1p lg)))).getCol? ("return_1") := by
            rw [Table.getCol?_setCol_ne _ _ _ _ (vol_ne_return _),
              Table.getCol?_setCol_ne _ _ _ _ (vol_ne_return _), hr1, hr2]
          by_cases hrest : ∃ i', i' ∈ rest ∧ n = ("volatility_") ++ toString i'
          · exact ih _ _ _ _ h1 h2 hreq' n hrest
          · obtain ⟨i0, hi0, hn0⟩ := hn
            have hnhead : n = ("volatility_") ++ toString i := by
              rcases List.mem_cons.mp hi0 with rfl | hmem
              · exact hn0
              · exact absurd ⟨i0, hmem, hn0⟩ hrest
            have hpres1 := volLoop_preserve lg sq rest _ _ h1 n
              (fun u hu hc => hrest ⟨u, hu, hc⟩)
            have hpres2 := volLoop_preserve lg sq rest _ _ h2 n
              (fun u hu hc => hrest ⟨u, hu, hc⟩)
            rw [hpres1, hpres2, hnhead, Table.getCol?_setCol_self, Table.getCol?_setCol_self]

theorem apply_ok_of_required (lg : ℚ → EF) (sq : ℚ → ℚ) (u : Indicator) (df : Table)
    (h : df.hasCol (u.requiredCol) = true) :
    ∃ out, Indicator.apply lg sq u df = .ok out := by
  cases u with
  | volatility tfs => exact volLoop_ok_of_hasCol lg sq tfs df h
  | macd =>
      simp only [Indicator.requiredCol] at h
      obtain ⟨v, hv⟩ := (Table.hasCol_iff df _).mp h
      exact ⟨_, by simp only [Indicator.apply, hv]; rfl⟩
  | rsi w =>
      simp only [Indicator.requiredCol] at h
      obtain ⟨v, hv⟩ := (Table.hasCol_iff df _).mp h
      exact ⟨_, by simp only [Indicator.apply, hv]; rfl⟩
  | bollingerBands w =>
      simp only [Indicator.requiredCol] at h
      obtain ⟨v, hv⟩ := (Table.hasCol_iff df _).mp h
      exact ⟨_, by simp only [Indicator.apply, hv]; rfl⟩

theorem getCol?_chain3 (t : Table) (n1 n2 n3 : String) (v1 v2 v3 : List EF) (m : String) :
    (((t.setCol n1 v1).setCol n2 v2).setCol n3 v3).getCol? m =
      if m = n3 then some v3
      else if m = n2 then some v2
      else if m = n1 then some v1
      else t.getCol? m := by
  by_cases e3 : m = n3
  · subst e3; simp [Table.getCol?_setCol_self]
  · rw [Table.getCol?_setCol_ne _ _ _ _ e3, if_neg e3]
    by_cases e2 : m = n2
    · subst e2; simp [Table.getCol?_setCol_self]
    · rw [Table.getCol?_setCol_ne _ _ _ _ e2, if_neg e2]
      by_cases e1 : m = n1
      · subst e1; simp [Table.getCol?_setCol_self]
      · rw [Table.getCol?_setCol_ne _ _ _ _ e1, if_neg e1]

theorem apply_index (lg : ℚ → EF) (sq : ℚ → ℚ) (u : Indicator) (df out : Table)
    (h : Indicator.apply lg sq u df = .ok out) : out.index = df.index := by
  cases u with
  | volatility tfs => exact volLoop_index lg sq tfs df out h
  | macd =>
      cases hv : df.getCol? ("Close") with
      | none => simp [Indicator.apply, hv] at h
      | some close =>
          simp only [Indicator.apply, hv] at h
          rw [← Except.ok.inj h]
          rfl
  | rsi w =>
      cases hv : df.getCol? ("return_1") with
      | none => simp [Indicator.apply, hv] at h
      | some r1 =>
          simp only [Indicator.apply, hv] at h
          rw [← Except.ok.inj h]
          rfl
  | bollingerBands w =>
      cases hv : df.getCol? ("Close") with
      | none => simp [Indicator.apply, hv] at h
      | some close =>
          simp only [Indicator.apply, hv] at h
          rw [← Except.ok.inj h]
          rfl

theorem apply_preserve (lg : ℚ → EF) (sq : ℚ → ℚ) (u : Indicator) (df out : Table)
    (h : Indicator.apply lg sq u df = .ok out) (n : String) (hn : n ∉ u.writeNames) :
    out.getCol? n = df.getCol? n := by
  cases u with
  | volatility tfs =>
      refine volLoop_preserve lg sq tfs df out h n ?_
      intro i hi hcontra
      exact hn (by rw [Indicator.writeNames]; exact List.mem_map.mpr ⟨i, hi, hcontra.symm⟩)
  | macd =>
      have h1 : ¬(n = ("macd_line")) := fun hq => hn (by rw [hq, Indicator.writeNames]; simp)
      have h2 : ¬(n = ("macd_signal_line")) :=
        fun hq => hn (by rw [hq, Indicator.writeNames]; simp)
      have h3 : ¬(n = ("macd_histogram")) :=
        fun hq => hn (by rw [hq, Indicator.writeNames]; simp)
      cases hv : df.getCol? ("Close") with
      | none => simp [Indicator.apply, hv] at h
      | some close =>
          simp only [Indicator.apply, hv] at h
          rw [← Except.ok.inj h, getCol?_chain3, if_neg h3, if_neg h2, if_neg h1]
  | rsi w =>
      have h1 : ¬(n = ("rsi")) := fun hq => hn (by rw [hq, Indicator.writeNames]; simp)
      cases hv : df.getCol? ("return_1") with
      | none => simp [Indicator.apply, hv] at h
      | some r1 =>
          simp only [Indicator.apply, hv] at h
          rw [← Except.ok.inj h, Table.getCol?_setCol_ne _ _ _ _ h1]
  | bollingerBands w =>
      have h1 : ¬(n = ("bollinger_mid")) :=
        fun hq => hn (by rw [hq, Indicator.writeNames]; simp)
      have h2 : ¬(n = ("bollinger_lower")) :=
        fun hq => hn (by rw [hq, Indicator.writeNames]; simp)
      have h3 : ¬(n = ("bollinger_upper")) :=
        fun hq => hn (by rw [hq, Indicator.writeNames]; simp)
      cases hv : df.getCol? ("Close") with
      | none => simp [Indicator.apply, hv] at h
      | some close =>
          simp only [Indicator.apply, hv] at h
          rw [← Except.ok.inj h, getCol?_chain3, if_neg h3, if_neg h2, if_neg h1]

theorem apply_det (lg : ℚ → EF) (sq : ℚ → ℚ) (u : Indicator) (d1 d2 o1 o2 : Table)
    (h1 : Indicator.apply lg sq u d1 = .ok o1) (h2 : Indicator.apply lg sq u d2 = .ok o2)
    (hreq : d1.getCol? (u.requiredCol) = d2.getCol? (u.requiredCol))
    (n : String) (hn : n ∈ u.writeNames) : o1.getCol? n = o2.getCol? n := by
  cases u with
  | volatility tfs =>
      refine volLoop_det lg sq tfs d1 d2 o1 o2 h1 h2 ?_ n ?_
      · simpa [Indicator.requiredCol] using hreq
      · obtain ⟨i, hi, hf⟩ := List.mem_map.mp hn
        exact ⟨i, hi, hf.symm⟩
  | macd =>
      simp only [Indicator.requiredCol] at hreq
      cases hv1 : d1.getCol? ("Close") with
      | none => simp [Indicator.apply, hv1] at h1
      | some close =>
          have hv2 : d2.getCol? ("Close") = some close := by rw [← hreq]; exact hv1
          simp only [Indicator.apply, hv1] at h1
          simp only [Indicator.apply, hv2] at h2
          rw [← Except.ok.inj h1, ← Except.ok.inj h2, getCol?_chain3, getCol?_chain3]
          simp only [Indicator.writeNames] at hn
          fin_cases hn <;> simp
  | rsi w =>
      simp only [Indicator.requiredCol] at hreq
      cases hv1 : d1.getCol? ("return_1") with
      | none => simp [Indicator.apply, hv1] at h1
      | some r1 =>
          have hv2 : d2.getCol? ("return_1") = some r1 := by rw [← hreq]; exact hv1
          simp only [Indicator.apply, hv1] at h1
          simp only [Indicator.apply, hv2] at h2
          rw [← Except.ok.inj h1, ← Except.ok.inj h2]
          simp only [Indicator.writeNames] at hn
          fin_cases hn
          rw [Table.getCol?_setCol_self, Table.getCol?_setCol_self]
  | bollingerBands w =>
      simp only [Indicator.requiredCol] at hreq
      cases hv1 : d1.getCol? ("Close") with
      | none => simp [Indicator.apply, hv1] at h1
      | some close =>
          have hv2 : d2.getCol? ("Close") = some close := by rw [← hreq]; exact hv1
          simp only [Indicator.apply, hv1] at h1
          simp only [Indicator.apply, hv2] at h2
          rw [← Except.ok.inj h1, ← Except.ok.inj h2, getCol?_chain3, getCol?_chain3]
          simp only [Indicator.writeNames] at hn
          fin_cases hn <;> simp

/-- Claim C7 (confirmed): two distinct stages among Volatility, MACD,
RSI and BollingerBands commute on any table containing both `return_1`
and `Close`: each stage reads only those base columns (which no stage
writes), writes its own disjoint set of new columns, and leaves every
other column's value unchanged, so applying the two stages in either
order succeeds and produces tables with the same index and the same
value for every column name. -/
theorem stages_commute (lg : ℚ → EF) (sq : ℚ → ℚ) (s t : Indicator)
    (hk : s.kind ≠ t.kind) (df : Table)
    (hr : df.hasCol ("return_1") = true) (hc : df.hasCol ("Close") = true) :
    ∃ o12 o21,
      (Indicator.apply lg sq s df).bind (Indicator.apply lg sq t) = .ok o12 ∧
      (Indicator.apply lg sq t df).bind (Indicator.apply lg sq s) = .ok o21 ∧
      o12.index = o21.index ∧
      ∀ n, o12.getCol? n = o21.getCol? n := by
  have hreqhas : ∀ u : Indicator, df.hasCol (u.requiredCol) = true := by
    intro u
    rcases requiredCol_base u with h | h <;> rw [h] <;> assumption
  have hnotin : ∀ u v : Indicator, v.requiredCol ∉ u.writeNames := by
    intro u v hmem
    obtain ⟨h1, h2⟩ := writeNames_avoid_base u _ hmem
    rcases requiredCol_base v with h | h
    · exact h1 h
    · exact h2 h
  obtain ⟨o1, ho1⟩ := apply_ok_of_required lg sq s df (hreqhas s)
  obtain ⟨o2, ho2⟩ := apply_ok_of_required lg sq t df (hreqhas t)
  have ho1req : o1.getCol? (t.requiredCol) = df.getCol? (t.requiredCol) :=
    apply_preserve lg sq s df o1 ho1 _ (hnotin s t)
  have ho2req : o2.getCol? (s.requiredCol) = df.getCol? (s.requiredCol) :=
    apply_preserve lg sq t df o2 ho2 _ (hnotin t s)
  have ho1has : o1.hasCol (t.requiredCol) = true := by
    rw [Table.hasCol_iff, ho1req, ← Table.hasCol_iff]
    exact hreqhas t
  have ho2has : o2.hasCol (s.requiredCol) = true := by
    rw [Table.hasCol_iff, ho2req, ← Table.hasCol_iff]
    exact hreqhas s
  obtain ⟨o12, ho12⟩ := apply_ok_of_required lg sq t o1 ho1has
  obtain ⟨o21, ho21⟩ := apply_ok_of_required lg sq s o2 ho2has
  refine ⟨o12, o21, by rw [ho1]; exact ho12, by rw [ho2]; exact ho21, ?_, ?_⟩
  · rw [apply_index lg sq t o1 o12 ho12, apply_index lg sq s df o1 ho1,
      apply_index lg sq s o2 o21 ho21, apply_index lg sq t df o2 ho2]
  · intro n
    by_cases hns : n ∈ s.writeNames
    · have hnt : n ∉ t.writeNames := writeNames_disjoint s t hk n hns
      rw [apply_preserve lg sq t o1 o12 ho12 n hnt]
      exact apply_det lg sq s df o2 o1 o21 ho1 ho21 ho2req.symm n hns
    · by_cases hnt : n ∈ t.writeNames
      · rw [apply_preserve lg sq s o2 o21 ho21 n hns]
        exact apply_det lg sq t o1 df o12 o2 ho12 ho2 ho1req n hnt
      · rw [apply_preserve lg sq t o1 o12 ho12 n hnt,
          apply_preserve lg sq s df o1 ho1 n hns,
          apply_preserve lg sq s o2 o21 ho21 n hns,
          apply_preserve lg sq t df o2 ho2 n hnt]

/-- Witness for `stages_commute`: RSI and MACD on a one-row table with
`return_1` and `Close`. -/
theorem stages_commute_witness :
    ∃ o12 o21,
      (Indicator.apply lgId sqId (.rsi 5) tinyRC).bind (Indicator.apply lgId sqId .macd)
        = .ok o12 ∧
      (Indicator.apply lgId sqId .macd tinyRC).bind (Indicator.apply lgId sqId (.rsi 5))
        = .ok o21 ∧
      o12.index = o21.index ∧
      ∀ n, o12.getCol? n = o21.getCol? n :=
  stages_commute lgId sqId (.rsi 5) .macd (by decide) tinyRC (by decide) (by decide)
